import Mathlib

/-!
# StockTracker — verification of the portfolio core

Shallow embedding of the StockTracker repository's portfolio core:
the exact-decimal value type (a wrapper around the apd arbitrary-precision
decimal library at working precision 20 with half-up rounding), the domain
model (Instrument, Position, Portfolio with merge-by-ISIN), the portfolio
service construction and single-item use case, and the batch add-positions
pipeline.  Machine text (UUIDs, ISINs, symbols, error messages) is modelled
by `String`; wall-clock times by `Nat` parameters threaded explicitly.
-/

namespace StockTracker

/-! ## Decimal value (domain/decimal.go, apd-backed)

`Decimal` wraps `apd.Decimal`: a finite decimal is a coefficient times a
power of ten.  `DefaultContext = apd.BaseContext.WithPrecision(20)` rounds
results of arithmetic to 20 significant digits with half-up rounding
(apd's default rounder).  We model a finite decimal as a pair of a signed
integer coefficient and an integer exponent, with rational value
`c * 10 ^ e`, and implement the context arithmetic over integers:
exact computation followed by rounding to 20 significant digits,
half away from zero on ties. -/

/-- Working precision of `DefaultContext` (apd.BaseContext.WithPrecision(20)). -/
def decPrecision : Nat := 20

/-- A finite decimal value: coefficient `c` and exponent `e`, value `c·10^e`.
Models a finite `apd.Decimal` (negative zero ignored: the sign of a zero
coefficient is not observable through the operations the domain uses). -/
structure Dec where
  c : Int
  e : Int
deriving DecidableEq, Repr

/-- Rational value of a decimal. -/
def Dec.val (d : Dec) : ℚ := (d.c : ℚ) * (10 : ℚ) ^ d.e

/-- Little-endian base-10 digits, fuel-based so that the kernel can reduce
it on literals (the fuel argument `n` itself is always sufficient). -/
def digitsRevGo : Nat → Nat → List Nat
  | 0, _ => []
  | fuel + 1, n => if n = 0 then [] else n % 10 :: digitsRevGo fuel (n / 10)

/-- Little-endian base-10 digits of `n` (empty for zero). -/
def digitsRev (n : Nat) : List Nat := digitsRevGo n n

/-- Number of base-10 digits of a coefficient magnitude, counting 0 as one
digit, as apd's `NumDigits` does. -/
def numDigits (n : Nat) : Nat := if n = 0 then 1 else (digitsRev n).length

/-- Division of naturals rounding half away from zero (`ROUND_HALF_UP` on
non-negative operands): `⌊(a + b/2) / b⌋` computed without the halving,
as `⌊(2a + b) / (2b)⌋`. -/
def halfUpDiv (a b : Nat) : Nat := (2 * a + b) / (2 * b)

/-- Round a decimal to at most `decPrecision` significant digits, half away
from zero, as the apd context does with a result exceeding its precision. -/
def Dec.round20 (d : Dec) : Dec :=
  if numDigits d.c.natAbs ≤ decPrecision then d
  else
    let k := numDigits d.c.natAbs - decPrecision
    ⟨d.c.sign * (halfUpDiv d.c.natAbs (10 ^ k) : Int), d.e + (k : Int)⟩

/-- `NewDecimalFromInt`: `SetInt64` yields coefficient `v`, exponent 0. -/
def NewDecimalFromInt (v : Int) : Dec := ⟨v, 0⟩

/-- The `Zero` constant of the domain decimal package. -/
def Dec.Zero : Dec := NewDecimalFromInt 0

/-- `Decimal.IsZero`: the coefficient is zero. -/
def Dec.IsZero (d : Dec) : Bool := d.c == 0

/-- `Decimal.Add` via `DefaultContext.Add`: exact sum at the smaller
exponent, rounded to the working precision.  The Go method returns an
error only when the apd context traps (exponent range exhaustion), which
the unbounded model never does, so it is total here. -/
def Dec.Add (d x : Dec) : Dec :=
  let m := min d.e x.e
  Dec.round20 ⟨d.c * 10 ^ (d.e - m).toNat + x.c * 10 ^ (x.e - m).toNat, m⟩

/-- `Decimal.Sub` via `DefaultContext.Sub`. -/
def Dec.Sub (d x : Dec) : Dec :=
  let m := min d.e x.e
  Dec.round20 ⟨d.c * 10 ^ (d.e - m).toNat - x.c * 10 ^ (x.e - m).toNat, m⟩

/-- `Decimal.Mul` via `DefaultContext.Mul`: exact product, rounded. -/
def Dec.Mul (d x : Dec) : Dec :=
  Dec.round20 ⟨d.c * x.c, d.e + x.e⟩

/-- Quotient of `d` by a non-zero `x` at the working precision, as
`DefaultContext.Quo` computes it: the scale is chosen so the quotient
coefficient carries at least `decPrecision` significant digits, and the
scaled integer quotient is rounded half away from zero. -/
def Dec.div20 (d x : Dec) : Dec :=
  let d1 := numDigits d.c.natAbs
  let d2 := numDigits x.c.natAbs
  let s : Int := (decPrecision : Int) + (d2 : Int) - (d1 : Int)
  let u : Nat := s.toNat
  let v : Nat := (-s).toNat
  let a := d.c.natAbs * 10 ^ u
  let b := x.c.natAbs * 10 ^ v
  ⟨d.c.sign * x.c.sign * (halfUpDiv a b : Int), d.e - x.e + (v : Int) - (u : Int)⟩

/-- `Decimal.Div`: fails exactly when the divisor is zero (the guard the Go
method performs before calling `DefaultContext.Quo`). -/
def Dec.Div (d x : Dec) : Except String Dec :=
  if x.IsZero then .error "division by zero" else .ok (d.div20 x)

/-- `Decimal.Cmp`: sign of the difference of the values (−1, 0, 1). -/
def Dec.Cmp (d x : Dec) : Int :=
  let m := min d.e x.e
  Int.sign (d.c * 10 ^ (d.e - m).toNat - x.c * 10 ^ (x.e - m).toNat)

/-- `Decimal.Equal`: `Cmp` returns 0, i.e. equality of values. -/
def Dec.Equal (d x : Dec) : Bool := d.Cmp x == 0

/-! ## Decimal string codec

`Decimal.String` delegates to apd's `String`, which renders a finite
decimal following the General Decimal Arithmetic `to-scientific-string`
rule: plain notation when the exponent is at most 0 and the adjusted
exponent is at least −6, exponential notation (`E` with an explicitly
signed exponent) otherwise.  `SetString` (used by `NewDecimalFromString`
and `Scan`) accepts an optional sign, digits with an optional single
decimal point, and an optional signed exponent after `e`/`E`; the
coefficient is the concatenated digits and the exponent is adjusted by
the number of fractional digits.  Infinities and NaN are untyped here:
the domain never constructs them and the round-trip claims concern
finite values. -/

/-- The decimal digit character for `d < 10`. -/
def digitChar (d : Nat) : Char := Char.ofNat (48 + d)

/-- Numeric value of a digit character. -/
def digitVal (ch : Char) : Nat := ch.toNat - 48

/-- Big-endian digit characters of a natural number (`"0"` for zero). -/
def natDigitChars (n : Nat) : List Char :=
  if n = 0 then ['0'] else (digitsRev n).reverse.map digitChar

/-- Parse a non-empty all-digit character list as a natural number. -/
def parseDigits (l : List Char) : Option Nat :=
  if l ≠ [] ∧ l.all Char.isDigit then
    some (l.foldl (fun a ch => a * 10 + digitVal ch) 0)
  else none

/-- Strip an optional leading sign; `true` means negative. -/
def parseSign : List Char → Bool × List Char
  | '-' :: rest => (true, rest)
  | '+' :: rest => (false, rest)
  | l => (false, l)

/-- Split at the first `e`/`E`, returning the mantissa characters and the
exponent characters when an exponent marker is present. -/
def splitOnExp : List Char → List Char × Option (List Char)
  | [] => ([], none)
  | ch :: rest =>
    if ch == 'E' || ch == 'e' then ([], some rest)
    else
      let (m, ex) := splitOnExp rest
      (ch :: m, ex)

/-- Split at the first `.`, returning the integer-part characters and the
fraction characters when a point is present. -/
def splitOnDot : List Char → List Char × Option (List Char)
  | [] => ([], none)
  | ch :: rest =>
    if ch == '.' then ([], some rest)
    else
      let (m, fr) := splitOnDot rest
      (ch :: m, fr)

/-- `apd.Decimal.SetString` on a finite numeric string, as a character-list
parser. -/
def parseChars (l : List Char) : Option Dec :=
  let (neg, l1) := parseSign l
  let (mant, expPart) := splitOnExp l1
  let (ip, fpOpt) := splitOnDot mant
  let fp := fpOpt.getD []
  match parseDigits (ip ++ fp) with
  | none => none
  | some v =>
    let c : Int := if neg then -(v : Int) else (v : Int)
    match expPart with
    | none => some ⟨c, -(fp.length : Int)⟩
    | some ex =>
      let (eneg, ed) := parseSign ex
      match parseDigits ed with
      | none => none
      | some ev =>
        let e0 : Int := if eneg then -(ev : Int) else (ev : Int)
        some ⟨c, e0 - (fp.length : Int)⟩

/-- Exponent suffix characters: an explicit sign then the digits, as GDA
scientific notation prints it. -/
def expChars (a : Int) : List Char :=
  (if a < 0 then ['-'] else ['+']) ++ natDigitChars a.natAbs

/-- `apd.Decimal.String` on a finite value, as a character list (GDA
`to-scientific-string`). -/
def formatChars (d : Dec) : List Char :=
  let D := natDigitChars d.c.natAbs
  let n := D.length
  let a : Int := d.e + (n : Int) - 1
  let body :=
    if d.e ≤ 0 ∧ -6 ≤ a then
      if d.e = 0 then D
      else if (n : Int) > -d.e then
        D.take (n - (-d.e).toNat) ++ '.' :: D.drop (n - (-d.e).toNat)
      else '0' :: '.' :: (List.replicate ((-d.e).toNat - n) '0' ++ D)
    else
      (match D with
       | [] => []
       | d0 :: rest => if rest = [] then [d0] else d0 :: '.' :: rest)
        ++ 'E' :: expChars a
  (if d.c < 0 then ['-'] else []) ++ body

/-- `Decimal.String`. -/
def Dec.format (d : Dec) : String := String.mk (formatChars d)

/-- `NewDecimalFromString`: `SetString`, failing with `InvalidDecimal` on
malformed input. -/
def NewDecimalFromString (s : String) : Except String Dec :=
  match parseChars s.data with
  | some d => .ok d
  | none => .error ("invalid decimal string " ++ s)

/-- `Decimal.Value` (database driver value): the canonical string. -/
def Dec.Value (d : Dec) : String := d.format

/-- `Decimal.Scan` from a textual database source (`string` or `[]byte`
both run `SetString`; the integer and float cases are not exercised by
the round-trip claim, whose `Value` is always a string). -/
def Dec.Scan (s : String) : Option Dec := parseChars s.data

/-! ## Domain model (internal/domain) -/

/-- `domain.InstrumentType`: two-variant enum. -/
inductive InstrumentType
  | stock
  | etf
deriving DecidableEq, Repr

/-- `domain.Instrument`.  The Go field `Type` is `Typ` here, `Type` being a
Lean keyword. -/
structure Instrument where
  ISIN : String
  Symbol : String
  Name : String
  Typ : InstrumentType
  Currency : String
  Exchange : String
deriving DecidableEq, Repr

/-- `domain.NewInstrument`. -/
def NewInstrument (isin symbol name : String) (instrumentType : InstrumentType)
    (currency exchange : String) : Instrument :=
  ⟨isin, symbol, name, instrumentType, currency, exchange⟩

/-- `Instrument.IsValid`: non-empty ISIN and symbol. -/
def Instrument.IsValid (i : Instrument) : Bool :=
  i.ISIN != "" && i.Symbol != ""

/-- `domain.Position`.  `LastUpdated` is a timestamp, modelled as `Nat`. -/
structure Position where
  ID : String
  PortfolioID : String
  InstrumentISIN : String
  Instrument : Instrument
  InvestedAmount : Dec
  InvestedCurrency : String
  Quantity : Dec
  CurrentPrice : Dec
  LastUpdated : Nat
deriving DecidableEq, Repr

/-- `domain.NewPosition`: fresh UUID and current time are effects of the Go
constructor (`uuid.New()`, `time.Now()`), passed here as parameters. -/
def NewPosition (instrument : Instrument) (investedAmount : Dec)
    (investedCurrency : String) (freshID : String) (now : Nat) : Position :=
  { ID := freshID
    PortfolioID := ""
    InstrumentISIN := ""
    Instrument := instrument
    InvestedAmount := investedAmount
    InvestedCurrency := investedCurrency
    Quantity := Dec.Zero
    CurrentPrice := Dec.Zero
    LastUpdated := now }

/-- `Position.UpdatePrice`: store the price and timestamp; when both the
price and the invested amount are non-zero, recompute the quantity as
`InvestedAmount.Div(price)`, propagating a division error. -/
def Position.UpdatePrice (p : Position) (price : Dec) (now : Nat) :
    Except String Position :=
  let p1 := { p with CurrentPrice := price, LastUpdated := now }
  if !price.IsZero && !p.InvestedAmount.IsZero then
    match p.InvestedAmount.Div price with
    | .error e => .error e
    | .ok quantity => .ok { p1 with Quantity := quantity }
  else
    .ok p1

/-- `Position.IsValid`. -/
def Position.IsValid (p : Position) : Bool :=
  p.ID != "" && p.Instrument.IsValid && !p.InvestedAmount.IsZero
    && p.InvestedCurrency != ""

/-- `domain.Portfolio`. -/
structure Portfolio where
  ID : String
  Name : String
  Positions : List Position
  LastUpdated : Nat
  CreatedAt : Nat
deriving DecidableEq, Repr

/-- `domain.NewPortfolio`: fresh UUID and creation time as parameters. -/
def NewPortfolio (name : String) (freshID : String) (now : Nat) : Portfolio :=
  { ID := freshID, Name := name, Positions := [], LastUpdated := 0, CreatedAt := now }

/-- The merge test of `Portfolio.AddPosition`'s loop: same position ID, or
same non-empty instrument ISIN. -/
def mergeMatch (existing pos : Position) : Bool :=
  existing.ID == pos.ID ||
    (existing.Instrument.ISIN == pos.Instrument.ISIN && existing.Instrument.ISIN != "")

/-- One merged slot: invested amount and quantity are summed, the current
price is overwritten with the incoming one, `LastUpdated` set to now. -/
def mergeInto (existing pos : Position) (now : Nat) : Position :=
  { existing with
    InvestedAmount := existing.InvestedAmount.Add pos.InvestedAmount
    Quantity := existing.Quantity.Add pos.Quantity
    CurrentPrice := pos.CurrentPrice
    LastUpdated := now }

/-- The loop of `Portfolio.AddPosition`: walk the slice; at the first slot
matching by ID or ISIN, merge in place and stop; `none` when no slot
matches. -/
def addPositionLoop (pos : Position) (now : Nat) :
    List Position → Option (List Position)
  | [] => none
  | existing :: rest =>
    if mergeMatch existing pos then
      some (mergeInto existing pos now :: rest)
    else
      (addPositionLoop pos now rest).map (existing :: ·)

/-- `Portfolio.AddPosition`: reject invalid positions; merge into the first
slot sharing the ID or a non-empty ISIN, otherwise append at the end.
The Go code checks the error results of the two decimal additions, which
are total in the model (see `Dec.Add`). -/
def Portfolio.AddPosition (p : Portfolio) (pos : Position) (now : Nat) :
    Except String Portfolio :=
  if !pos.IsValid then .error "invalid position"
  else
    match addPositionLoop pos now p.Positions with
    | some ps => .ok { p with Positions := ps }
    | none => .ok { p with Positions := p.Positions ++ [pos] }

/-- The loop of `Portfolio.RemovePosition`: delete the first slot with the
given ID, preserving the order of the rest; `none` when absent. -/
def removePositionLoop (id : String) : List Position → Option (List Position)
  | [] => none
  | pos :: rest =>
    if pos.ID == id then some rest
    else (removePositionLoop id rest).map (pos :: ·)

/-- `Portfolio.RemovePosition`: `PositionNotFound` when the ID is absent. -/
def Portfolio.RemovePosition (p : Portfolio) (id : String) :
    Except String Portfolio :=
  match removePositionLoop id p.Positions with
  | some ps => .ok { p with Positions := ps }
  | none => .error "position not found"

/-- `Portfolio.GetPosition`: first position with the given ID. -/
def Portfolio.GetPosition (p : Portfolio) (id : String) :
    Except String Position :=
  match p.Positions.find? (fun pos => pos.ID == id) with
  | some pos => .ok pos
  | none => .error "position not found"

/-! ## Repository model and portfolio service (internal/application)

The SQL repository upserts the portfolio row by its primary key `id`; its
durable state is modelled as the list of saved portfolios.  `Save` is the
only repository operation the claims under study exercise on the write
path; a failing `Save` is modelled by the caller supplying the error. -/

/-- Durable repository state: saved portfolio rows, upserted by ID. -/
def repoSave (st : List Portfolio) (p : Portfolio) : List Portfolio :=
  if st.any (fun q => q.ID == p.ID) then
    st.map (fun q => if q.ID == p.ID then p else q)
  else st ++ [p]

/-- `NewPortfolioService`: build a *new* portfolio named "default" with a
fresh UUID and save it; the service keeps it as the in-memory default.
Returns the service's default portfolio and the repository state after
the eager save.  (The Go constructor performs no lookup of an existing
"default" row.) -/
def NewPortfolioService (repo : List Portfolio) (freshID : String) (now : Nat) :
    Portfolio × List Portfolio :=
  let defaultPortfolio := NewPortfolio "default" freshID now
  (defaultPortfolio, repoSave repo defaultPortfolio)

/-- `marketdata.QuoteResult`.  `Price` is a shopspring decimal in Go; the
service only ever consumes it through `quote.Price.String()` followed by
`NewDecimalFromString`, so the model carries that decimal string. -/
structure QuoteResult where
  Symbol : String
  Price : String
  Currency : String
  Time : String
deriving DecidableEq, Repr

/-- `PortfolioService.ListPositions`: the current position slice. -/
def ListPositions (defaultPortfolio : Portfolio) : List Position :=
  defaultPortfolio.Positions

/-- `PortfolioService.GetPortfolioSummary`: the aggregate itself. -/
def GetPortfolioSummary (defaultPortfolio : Portfolio) : Portfolio :=
  defaultPortfolio

/-- `PortfolioService.AddPosition` (single-item use case), over the
in-memory default portfolio.  Provider behaviour is passed as the search
result and the quote function; `saveErr` is the outcome of `repo.Save`.
Returns the use case's result together with the default portfolio as it
is after the call — the Go aggregate is mutated in place before `Save`
runs, so a failing save leaves the mutation visible. -/
def ServiceAddPosition (defaultPortfolio : Portfolio)
    (searchRes : Except String Instrument)
    (quoteRes : String → Except String QuoteResult)
    (saveErr : Option String)
    (investedAmount : Dec) (currency : String)
    (freshID : String) (now : Nat) :
    Except String Position × Portfolio :=
  match searchRes with
  | .error e => (.error ("failed to find instrument: " ++ e), defaultPortfolio)
  | .ok instrument =>
    let position := NewPosition instrument investedAmount currency freshID now
    match quoteRes instrument.Symbol with
    | .error e => (.error ("failed to get quote: " ++ e), defaultPortfolio)
    | .ok quote =>
      match NewDecimalFromString quote.Price with
      | .error e => (.error ("failed to parse quote price: " ++ e), defaultPortfolio)
      | .ok price =>
        match position.UpdatePrice price now with
        | .error e => (.error ("failed to update position price: " ++ e), defaultPortfolio)
        | .ok position2 =>
          match defaultPortfolio.AddPosition position2 now with
          | .error e => (.error ("failed to add position: " ++ e), defaultPortfolio)
          | .ok portfolio2 =>
            match saveErr with
            | some e => (.error ("failed to save portfolio: " ++ e), portfolio2)
            | none => (.ok position2, portfolio2)

/-! ## Batch pipeline (internal/application/position_batch.go)

Go maps are modelled as association lists: assignment overwrites the
existing binding in place or appends a new one, deletion filters the key
out, and iteration follows the list.  Go leaves map iteration order
unspecified; this embedding fixes insertion order.  The refuted claim
fails under every iteration order (whichever ISIN wins a symbol
collision, the other one is dropped), and the proved ones do not depend
on the order. -/

/-- Association-list model of a Go map with `String` keys. -/
abbrev AMap (α : Type) : Type := List (String × α)

/-- Map indexing: the value bound to `k`, when present. -/
def AMap.lookup {α : Type} (m : AMap α) (k : String) : Option α :=
  (List.find? (fun kv => kv.1 == k) m).map (·.2)

/-- Map assignment `m[k] = v`: overwrite the binding of `k` in place when
present, append otherwise. -/
def AMap.insert {α : Type} : AMap α → String → α → AMap α
  | [], k, v => [(k, v)]
  | (k', v') :: rest, k, v =>
    if k' == k then (k, v) :: rest else (k', v') :: AMap.insert rest k v

/-- Map deletion `delete(m, k)`. -/
def AMap.erase {α : Type} (m : AMap α) (k : String) : AMap α :=
  List.filter (fun kv => kv.1 != k) m

/-- The keys of a map, in iteration order. -/
def AMap.keys {α : Type} (m : AMap α) : List String := List.map (·.1) m

/-- `application.AddPositionBatchRequest`. -/
structure AddPositionBatchRequest where
  ISIN : String
  InvestedAmount : Dec
  Currency : String
deriving DecidableEq, Repr

/-- `application.AddPositionResult`. -/
structure AddPositionResult where
  ISIN : String
  Pos : Option Position
  Error : Option String
deriving DecidableEq, Repr

/-- The `ISIN → request` map: duplicate ISINs collapse, the last
occurrence winning. -/
def buildRequestMap (requests : List AddPositionBatchRequest) :
    AMap AddPositionBatchRequest :=
  requests.foldl (fun m r => m.insert r.ISIN r) []

/-- `application.AddPositionsBatchResult`. -/
structure AddPositionsBatchResult where
  Successful : List AddPositionResult
  Failed : List AddPositionResult
deriving DecidableEq, Repr

/-- `marketdata.BatchSearchResult`: one entry of `SearchByISINBatch`. -/
structure BatchSearchResult where
  ISIN : String
  Instrument : Option Instrument
  Error : Option String
deriving DecidableEq, Repr

/-- `marketdata.BatchQuoteResult`: one entry of `GetQuoteBatch`. -/
structure BatchQuoteResult where
  Symbol : String
  Quote : Option QuoteResult
  Error : Option String
deriving DecidableEq, Repr

/-- A market-data provider behaviour: either only the base capability
(per-item calls, fanned out concurrently by the service) or the batch
capability (the service detects it and calls the batch methods).  A Go
call returning `(value, err)` is a pair of options: either may be nil. -/
inductive ProviderModel
  | basic (search : String → Option Instrument × Option String)
      (quote : String → Option QuoteResult × Option String)
  | batch (searchB : List String → List BatchSearchResult)
      (quoteB : List String → List BatchQuoteResult)

/-- The common shape of all four collection loops: a result with an error
is booked into the errors map under its key, otherwise its — possibly
nil — payload is stored into the values map. -/
def classifyStep {τ β : Type} (key : τ → String) (errOf : τ → Option String)
    (payload : τ → β) (ms : AMap β × AMap String) (x : τ) :
    AMap β × AMap String :=
  match errOf x with
  | some e => (ms.1, ms.2.insert (key x) e)
  | none => (ms.1.insert (key x) (payload x), ms.2)

/-- One collection step of `searchInstrumentsBatch`. -/
def collectSearchStep : AMap (Option Instrument) × AMap String →
    BatchSearchResult → AMap (Option Instrument) × AMap String :=
  classifyStep BatchSearchResult.ISIN BatchSearchResult.Error
    BatchSearchResult.Instrument

/-- `searchInstrumentsBatch`: split the provider entries into the
instruments map and the errors map. -/
def collectSearch (entries : List BatchSearchResult) :
    AMap (Option Instrument) × AMap String :=
  entries.foldl collectSearchStep ([], [])

/-- `searchInstrumentsConcurrent`: one worker per input ISIN, results
collected into the same two maps (collection order modelled as input
order; the maps do not depend on it, each key being written with the
same value however often its ISIN repeats). -/
def collectSearchConcurrentStep
    (search : String → Option Instrument × Option String) :
    AMap (Option Instrument) × AMap String → String →
    AMap (Option Instrument) × AMap String :=
  classifyStep (fun isin => isin) (fun isin => (search isin).2)
    (fun isin => (search isin).1)

def collectSearchConcurrent
    (search : String → Option Instrument × Option String)
    (isins : List String) : AMap (Option Instrument) × AMap String :=
  isins.foldl (collectSearchConcurrentStep search) ([], [])

def collectQuotesStep : AMap (Option QuoteResult) × AMap String →
    BatchQuoteResult → AMap (Option QuoteResult) × AMap String :=
  classifyStep BatchQuoteResult.Symbol BatchQuoteResult.Error
    BatchQuoteResult.Quote

/-- `getQuotesBatch`. -/
def collectQuotes (entries : List BatchQuoteResult) :
    AMap (Option QuoteResult) × AMap String :=
  entries.foldl collectQuotesStep ([], [])

/-- `getQuotesConcurrent`. -/
def collectQuotesConcurrentStep
    (quote : String → Option QuoteResult × Option String) :
    AMap (Option QuoteResult) × AMap String → String →
    AMap (Option QuoteResult) × AMap String :=
  classifyStep (fun symbol => symbol) (fun symbol => (quote symbol).2)
    (fun symbol => (quote symbol).1)

def collectQuotesConcurrent
    (quote : String → Option QuoteResult × Option String)
    (symbols : List String) : AMap (Option QuoteResult) × AMap String :=
  symbols.foldl (collectQuotesConcurrentStep quote) ([], [])

/-- The search stage: batch call when the provider has the capability,
concurrent fan-out otherwise. -/
def searchStage (provider : ProviderModel) (isins : List String) :
    AMap (Option Instrument) × AMap String :=
  match provider with
  | .batch searchB _ => collectSearch (searchB isins)
  | .basic search _ => collectSearchConcurrent search isins

/-- The quote stage: batch call or concurrent fan-out. -/
def quoteStage (provider : ProviderModel) (symbols : List String) :
    AMap (Option QuoteResult) × AMap String :=
  match provider with
  | .batch _ quoteB => collectQuotes (quoteB symbols)
  | .basic _ quote => collectQuotesConcurrent quote symbols

/-- Search-error bookkeeping: each errored ISIN is appended to `Failed`
and removed from the pending request map. -/
def processSearchErrors (errs : AMap String)
    (failed : List AddPositionResult)
    (requestMap : AMap AddPositionBatchRequest) :
    List AddPositionResult × AMap AddPositionBatchRequest :=
  match errs with
  | [] => (failed, requestMap)
  | (isin, e) :: rest =>
    processSearchErrors rest (failed ++ [⟨isin, none, some e⟩]) (requestMap.erase isin)

/-- Collection of the symbols list and the `symbol → ISIN` map from the
found instruments.  Iterating a stored nil instrument dereferences a nil
pointer in Go; that panic is modelled by `none`. -/
def collectSymbolsGo : List (String × Option Instrument) → List String →
    AMap String → Option (List String × AMap String)
  | [], syms, m => some (syms, m)
  | (_, none) :: _, _, _ => none
  | (isin, some inst) :: rest, syms, m =>
    collectSymbolsGo rest (syms ++ [inst.Symbol]) (m.insert inst.Symbol isin)

def collectSymbols (instruments : AMap (Option Instrument)) :
    Option (List String × AMap String) :=
  collectSymbolsGo instruments [] []

/-- Quote-error bookkeeping: each errored symbol is mapped back through
`symbolToISIN` (a missing key yields Go's zero value `""`), the ISIN is
appended to `Failed` and removed from the pending map. -/
def processQuoteErrors (qerrs : AMap String) (symbolToISIN : AMap String)
    (failed : List AddPositionResult)
    (requestMap : AMap AddPositionBatchRequest) :
    List AddPositionResult × AMap AddPositionBatchRequest :=
  match qerrs with
  | [] => (failed, requestMap)
  | (symbol, e) :: rest =>
    let isin := (symbolToISIN.lookup symbol).getD ""
    processQuoteErrors rest symbolToISIN
      (failed ++ [⟨isin, none, some ("failed to get quote: " ++ e)⟩])
      (requestMap.erase isin)

/-- The assembly loop: for each surviving pending request, look up its
instrument and quote (skipping silently when either is missing or nil,
as the Go `continue` does), build the position, parse and apply the
price, and add it to the aggregate; per-request failures go to `Failed`,
the rest to `Successful`. -/
def assemble (pending : List (String × AddPositionBatchRequest))
    (instruments : AMap (Option Instrument))
    (quotes : AMap (Option QuoteResult))
    (portfolio : Portfolio) (freshID : String → String) (now : Nat)
    (successful failed : List AddPositionResult) :
    List AddPositionResult × List AddPositionResult × Portfolio :=
  match pending with
  | [] => (successful, failed, portfolio)
  | (isin, req) :: rest =>
    match instruments.lookup isin with
    | none => assemble rest instruments quotes portfolio freshID now successful failed
    | some none => assemble rest instruments quotes portfolio freshID now successful failed
    | some (some instrument) =>
      match quotes.lookup instrument.Symbol with
      | none => assemble rest instruments quotes portfolio freshID now successful failed
      | some none => assemble rest instruments quotes portfolio freshID now successful failed
      | some (some quote) =>
        let position := NewPosition instrument req.InvestedAmount req.Currency (freshID isin) now
        match NewDecimalFromString quote.Price with
        | .error e =>
          assemble rest instruments quotes portfolio freshID now successful
            (failed ++ [⟨isin, none, some ("failed to parse price: " ++ e)⟩])
        | .ok price =>
          match position.UpdatePrice price now with
          | .error e =>
            assemble rest instruments quotes portfolio freshID now successful
              (failed ++ [⟨isin, none, some ("failed to update price: " ++ e)⟩])
          | .ok position2 =>
            match portfolio.AddPosition position2 now with
            | .error e =>
              assemble rest instruments quotes portfolio freshID now successful
                (failed ++ [⟨isin, none, some ("failed to add to portfolio: " ++ e)⟩])
            | .ok portfolio2 =>
              assemble rest instruments quotes portfolio2 freshID now
                (successful ++ [⟨isin, some position2, none⟩]) failed

/-- The whole pipeline before the commit stage: returns the pre-commit
result and the mutated aggregate, or `none` for the nil-instrument
panic. -/
def AddPositionsBatchPre (portfolio : Portfolio) (provider : ProviderModel)
    (requests : List AddPositionBatchRequest)
    (freshID : String → String) (now : Nat) :
    Option (AddPositionsBatchResult × Portfolio) :=
  if requests = [] then some (⟨[], []⟩, portfolio)
  else
    let isins := requests.map (·.ISIN)
    let requestMap : AMap AddPositionBatchRequest := buildRequestMap requests
    let (instruments, instrumentErrors) := searchStage provider isins
    let (failed1, requestMap1) := processSearchErrors instrumentErrors [] requestMap
    match collectSymbols instruments with
    | none => none
    | some (symbols, symbolToISIN) =>
      let (quotes, quoteErrors) := quoteStage provider symbols
      let (failed2, requestMap2) := processQuoteErrors quoteErrors symbolToISIN failed1 requestMap1
      let (successful, failed3, portfolio3) :=
        assemble requestMap2 instruments quotes portfolio freshID now [] failed2
      some (⟨successful, failed3⟩, portfolio3)

/-- The commit stage: call `repo.Save` once when `Successful` is
non-empty; on save failure demote every successful entry to `Failed`
(dropping its position pointer, as the Go struct literal does) and clear
`Successful`.  The boolean records whether `Save` was called — the Go
function has a single `Save` call site, so it is called at most once. -/
def commitStage (result : AddPositionsBatchResult) (saveErr : Option String) :
    AddPositionsBatchResult × Bool :=
  if result.Successful.length > 0 then
    match saveErr with
    | some e =>
      (⟨[], result.Failed ++ result.Successful.map
          (fun pos => ⟨pos.ISIN, none, some ("failed to save portfolio: " ++ e)⟩)⟩, true)
    | none => (result, true)
  else (result, false)

/-- `PortfolioService.AddPositionsBatch`: the full pipeline.  Returns the
batch result, the default portfolio after the call, and whether
`repo.Save` was invoked; `none` models the nil-instrument panic. -/
def AddPositionsBatch (portfolio : Portfolio) (provider : ProviderModel)
    (requests : List AddPositionBatchRequest)
    (freshID : String → String) (now : Nat) (saveErr : Option String) :
    Option (AddPositionsBatchResult × Portfolio × Bool) :=
  match AddPositionsBatchPre portfolio provider requests freshID now with
  | none => none
  | some (pre, portfolio2) =>
    let (res, saveCalled) := commitStage pre saveErr
    some (res, portfolio2, saveCalled)

/-! ## Statement-level definitions for the claims -/

/-- An aggregate mutation: one `AddPosition` or `RemovePosition` call.
The timestamp the add passes to the aggregate is part of the operation. -/
inductive PortfolioOp
  | add (pos : Position) (now : Nat)
  | remove (id : String)

/-- Apply one aggregate operation. -/
def applyOp (p : Portfolio) : PortfolioOp → Except String Portfolio
  | .add pos now => p.AddPosition pos now
  | .remove id => p.RemovePosition id

/-- Run a sequence of aggregate operations, requiring each to return
without error. -/
def runOps (p : Portfolio) : List PortfolioOp → Except String Portfolio
  | [] => .ok p
  | op :: ops =>
    match applyOp p op with
    | .error e => .error e
    | .ok p2 => runOps p2 ops

/-- How many positions of the slice carry the given ISIN. -/
def countISIN (l : List Position) (isin : String) : Nat :=
  l.countP (fun pos => pos.Instrument.ISIN == isin)

/-- The ISINs of a result slice. -/
def resultISINs (rs : List AddPositionResult) : List String :=
  rs.map (·.ISIN)

/-- Claim C2 as stated: whenever the batch call returns a result, the set
of request ISINs (duplicates collapse, which leaves the same set) equals
the union of the ISINs of `Successful` and `Failed`, and the two are
disjoint. -/
def BatchPartitionClaim (portfolio : Portfolio) (provider : ProviderModel)
    (requests : List AddPositionBatchRequest) (freshID : String → String)
    (now : Nat) (saveErr : Option String) : Prop :=
  ∀ res p2 sc,
    AddPositionsBatch portfolio provider requests freshID now saveErr
      = some (res, p2, sc) →
    (∀ isin, isin ∈ requests.map AddPositionBatchRequest.ISIN ↔
      (isin ∈ resultISINs res.Successful ∨ isin ∈ resultISINs res.Failed)) ∧
    (∀ isin, ¬(isin ∈ resultISINs res.Successful ∧ isin ∈ resultISINs res.Failed))

/-- The documented contract of `SearchByISINBatch`: one entry per input
ISIN (no extras, no duplicates), each carrying an instrument when it
carries no error. -/
def SearchBatchContract (searchB : List String → List BatchSearchResult) : Prop :=
  ∀ isins : List String,
    ((searchB isins).map BatchSearchResult.ISIN).Nodup ∧
    (∀ isin, isin ∈ (searchB isins).map BatchSearchResult.ISIN ↔ isin ∈ isins) ∧
    (∀ r ∈ searchB isins, r.Error = none → (r.Instrument).isSome = true)

/-- The documented contract of `GetQuoteBatch`: one entry per input
symbol, each carrying a quote when it carries no error. -/
def QuoteBatchContract (quoteB : List String → List BatchQuoteResult) : Prop :=
  ∀ symbols : List String,
    ((quoteB symbols).map BatchQuoteResult.Symbol).Nodup ∧
    (∀ s, s ∈ (quoteB symbols).map BatchQuoteResult.Symbol ↔ s ∈ symbols) ∧
    (∀ r ∈ quoteB symbols, r.Error = none → (r.Quote).isSome = true)

/-- Distinct found instruments of a batch search carry distinct symbols. -/
def DistinctSymbolsBatch (searchB : List String → List BatchSearchResult) : Prop :=
  ∀ isins : List String, ∀ r1 ∈ searchB isins, ∀ r2 ∈ searchB isins,
    ∀ i1 i2, r1.Instrument = some i1 → r2.Instrument = some i2 →
      i1.Symbol = i2.Symbol → r1.ISIN = r2.ISIN

/-- A base-capability call never returns a nil payload together with a nil
error (doing so crashes or silently drops the request in the pipeline). -/
def BasicSearchContract (search : String → Option Instrument × Option String) : Prop :=
  ∀ isin, (search isin).2 = none → ((search isin).1).isSome = true

def BasicQuoteContract (quote : String → Option QuoteResult × Option String) : Prop :=
  ∀ s, (quote s).2 = none → ((quote s).1).isSome = true

/-- Instruments found for distinct ISINs carry distinct symbols. -/
def DistinctSymbolsBasic (search : String → Option Instrument × Option String) : Prop :=
  ∀ isin1 isin2 i1 i2, (search isin1).1 = some i1 → (search isin2).1 = some i2 →
    i1.Symbol = i2.Symbol → isin1 = isin2

/-- The provider contract under which the batch partition property holds:
well-formed per-entry results and pairwise-distinct symbols. -/
def ProviderContract : ProviderModel → Prop
  | .batch searchB quoteB =>
    SearchBatchContract searchB ∧ QuoteBatchContract quoteB ∧
      DistinctSymbolsBatch searchB
  | .basic search quote =>
    BasicSearchContract search ∧ BasicQuoteContract quote ∧
      DistinctSymbolsBasic search

/-! Concrete inputs refuting C2 as stated: two ISINs whose instruments
share the symbol `"S"`, and a quote stage that fails for `"S"`.  The
`symbol → ISIN` map retains only one of the two ISINs, so the quote
failure is booked against `"B"` while `"A"` is silently dropped by the
assembly loop — it appears in neither result slice.  The drop occurs
under every map-iteration order: whichever ISIN wins the collision, the
other one vanishes. -/

def cexInstA : Instrument := ⟨"A", "S", "a", .stock, "USD", "X"⟩

def cexInstB : Instrument := ⟨"B", "S", "b", .stock, "USD", "X"⟩

def cexProvider : ProviderModel :=
  .batch (fun _ => [⟨"A", some cexInstA, none⟩, ⟨"B", some cexInstB, none⟩])
    (fun _ => [⟨"S", none, some "boom"⟩])

def cexRequests : List AddPositionBatchRequest :=
  [⟨"A", NewDecimalFromInt 1000, "USD"⟩, ⟨"B", NewDecimalFromInt 1000, "USD"⟩]

def cexPortfolio : Portfolio := NewPortfolio "default" "pid" 0

/-! Small concrete values used by witness instantiations. -/

def wInstrument : Instrument := NewInstrument "I" "S" "n" .stock "USD" "X"

def wExisting : Position := NewPosition wInstrument (NewDecimalFromInt 7) "USD" "idA" 0

def wPos : Position := NewPosition wInstrument (NewDecimalFromInt 10) "USD" "idB" 0

def wPortfolio : Portfolio :=
  { ID := "p", Name := "t", Positions := [wExisting], LastUpdated := 0, CreatedAt := 0 }

/-! Concrete values for the batch-commit witness: one request that
succeeds end to end. -/

def w2Inst : Instrument := ⟨"US1", "AAPL", "Apple", .stock, "USD", "NASDAQ"⟩

def w2Provider : ProviderModel :=
  .batch (fun _ => [⟨"US1", some w2Inst, none⟩])
    (fun _ => [⟨"AAPL", some ⟨"AAPL", "150", "USD", "t"⟩, none⟩])

def w2Requests : List AddPositionBatchRequest :=
  [⟨"US1", NewDecimalFromInt 1000, "USD"⟩]

def w2Position : Position :=
  { ID := "US1-id", PortfolioID := "", InstrumentISIN := "",
    Instrument := w2Inst, InvestedAmount := ⟨1000, 0⟩,
    InvestedCurrency := "USD", Quantity := ⟨66666666666666666667, -19⟩,
    CurrentPrice := ⟨150, 0⟩, LastUpdated := 0 }

def w2Pre : AddPositionsBatchResult := ⟨[⟨"US1", some w2Position, none⟩], []⟩

def w2Portfolio : Portfolio :=
  { ID := "pid", Name := "default", Positions := [w2Position],
    LastUpdated := 0, CreatedAt := 0 }

/-! An honest batch provider used to witness the amended C2: one entry per
deduplicated input key, the symbol equal to the ISIN. -/

def wcProvider : ProviderModel :=
  .batch
    (fun isins => isins.dedup.map
      (fun i => ⟨i, some ⟨i, i, "n", .stock, "USD", "X"⟩, none⟩))
    (fun syms => syms.dedup.map
      (fun s => ⟨s, some ⟨s, "150", "USD", "t"⟩, none⟩))

/-! ## Helper lemmas -/

/-- `UpdatePrice` is total: it stores the price and timestamp, recomputes
the quantity exactly when both the price and the invested amount are
non-zero, and leaves every other field unchanged. -/
theorem updatePrice_total (p : Position) (price : Dec) (now : Nat) :
    p.UpdatePrice price now = .ok
      { p with
        CurrentPrice := price
        LastUpdated := now
        Quantity :=
          if !price.IsZero && !p.InvestedAmount.IsZero then p.InvestedAmount.div20 price
          else p.Quantity } := by
  unfold Position.UpdatePrice
  by_cases hz : price.IsZero
  · simp [hz]
  · simp only [Bool.not_eq_true] at hz
    by_cases hi : p.InvestedAmount.IsZero
    · simp [hz, hi]
    · simp only [Bool.not_eq_true] at hi
      simp [hz, hi, Dec.Div]

/-! ## C8 -/

/-- C8: `Decimal.Div` fails exactly when the divisor is zero (and then no
quotient is produced), and a zero dividend with a non-zero divisor
yields a quotient equal to zero. -/
theorem c8_div_contract (d x : Dec) :
    ((∃ e, d.Div x = .error e) ↔ x.IsZero = true) ∧
    (d.IsZero = true → x.IsZero = false →
      ∃ r, d.Div x = .ok r ∧ r.Equal Dec.Zero = true) := by
  constructor
  · constructor
    · rintro ⟨e, he⟩
      by_contra hx
      simp only [Bool.not_eq_true] at hx
      simp [Dec.Div, hx] at he
    · intro h
      exact ⟨"division by zero", by simp [Dec.Div, h]⟩
  · intro hd hx
    refine ⟨d.div20 x, by simp [Dec.Div, hx], ?_⟩
    have hc : d.c = 0 := by simpa [Dec.IsZero] using hd
    simp [Dec.div20, Dec.Equal, Dec.Cmp, hc, Dec.Zero, NewDecimalFromInt]

/-- Witness for C8 at `0 / 7`. -/
theorem c8_div_contract_witness :
    ∃ r, (NewDecimalFromInt 0).Div (NewDecimalFromInt 7) = .ok r ∧
      r.Equal Dec.Zero = true :=
  (c8_div_contract (NewDecimalFromInt 0) (NewDecimalFromInt 7)).2 (by decide) (by decide)

/-! ## C7 -/

/-- C7: `UpdatePrice` never rejects a price — in particular a negative
price is stored and propagates — the stored `CurrentPrice` is exactly
the incoming price, and a zero price leaves the quantity untouched (the
division is suppressed). -/
theorem c7_zero_price_update (p : Position) (price : Dec) (now : Nat) :
    ∃ p2, p.UpdatePrice price now = .ok p2 ∧
      p2.CurrentPrice = price ∧
      (price.IsZero = true → p2.Quantity = p.Quantity) := by
  refine ⟨_, updatePrice_total p price now, rfl, ?_⟩
  intro hz
  simp [hz]

/-- Witness for C7: updating to price zero (and, separately reachable
through the same theorem, to the negative price `−5`). -/
theorem c7_zero_price_update_witness :
    ∃ p2, (NewPosition (NewInstrument "I" "S" "n" .stock "USD" "X")
        (NewDecimalFromInt 10) "USD" "id1" 3).UpdatePrice Dec.Zero 7 = .ok p2 ∧
      p2.CurrentPrice = Dec.Zero ∧
      (Dec.Zero.IsZero = true → p2.Quantity =
        (NewPosition (NewInstrument "I" "S" "n" .stock "USD" "X")
          (NewDecimalFromInt 10) "USD" "id1" 3).Quantity) :=
  c7_zero_price_update _ Dec.Zero 7

/-! ## C1 -/

/-- C1 (the code contradicts the claim): the id of the service's default
portfolio is always the freshly generated UUID, whatever the repository
holds, so two successive constructions with distinct fresh UUIDs yield
distinct default-portfolio ids — no existing "default" row is looked up
or reused. -/
theorem c1_no_reuse (repo : List Portfolio) (id1 id2 : String)
    (now1 now2 : Nat) (hne : id1 ≠ id2) :
    (NewPortfolioService repo id1 now1).1.ID = id1 ∧
    (NewPortfolioService (NewPortfolioService repo id1 now1).2 id2 now2).1.ID = id2 ∧
    (NewPortfolioService repo id1 now1).1.ID ≠
      (NewPortfolioService (NewPortfolioService repo id1 now1).2 id2 now2).1.ID :=
  ⟨rfl, rfl, by simpa using hne⟩

/-- Witness for C1's evidence theorem: a repository that already contains
a portfolio named "default" with id `"u0"`, constructed twice more. -/
theorem c1_no_reuse_witness :
    (NewPortfolioService [NewPortfolio "default" "u0" 0] "u1" 1).1.ID = "u1" ∧
    (NewPortfolioService (NewPortfolioService [NewPortfolio "default" "u0" 0] "u1" 1).2 "u2" 2).1.ID = "u2" ∧
    (NewPortfolioService [NewPortfolio "default" "u0" 0] "u1" 1).1.ID ≠
      (NewPortfolioService (NewPortfolioService [NewPortfolio "default" "u0" 0] "u1" 1).2 "u2" 2).1.ID :=
  c1_no_reuse [NewPortfolio "default" "u0" 0] "u1" "u2" 1 2 (by decide)

/-! ## Merge-loop shape lemmas -/

/-- The merge loop finds no slot exactly when no slot matches. -/
theorem addPositionLoop_none_iff (pos : Position) (now : Nat) (l : List Position) :
    addPositionLoop pos now l = none ↔ ∀ x ∈ l, mergeMatch x pos = false := by
  induction l with
  | nil => simp [addPositionLoop]
  | cons a t ih =>
    by_cases ha : mergeMatch a pos
    · simp [addPositionLoop, ha]
    · simp only [Bool.not_eq_true] at ha
      simp [addPositionLoop, ha, ih, Option.map_eq_none']

/-- When some slot matches, the merge loop rewrites the first matching
slot in place and leaves everything else alone. -/
theorem addPositionLoop_some_of_match (pos : Position) (now : Nat) :
    ∀ (l : List Position) (x : Position), x ∈ l → mergeMatch x pos = true →
    ∃ l1 y l2, l = l1 ++ y :: l2 ∧ (∀ z ∈ l1, mergeMatch z pos = false) ∧
      mergeMatch y pos = true ∧
      addPositionLoop pos now l = some (l1 ++ mergeInto y pos now :: l2) := by
  intro l
  induction l with
  | nil => intro x hx; simp at hx
  | cons a t ih =>
    intro x hx hmx
    by_cases ha : mergeMatch a pos
    · exact ⟨[], a, t, rfl, by simp, ha, by simp [addPositionLoop, ha]⟩
    · have hxt : x ∈ t := by
        rcases List.mem_cons.mp hx with h | h
        · subst h; exact absurd hmx (by simpa using ha)
        · exact h
      obtain ⟨l1, y, l2, hdec, hnone, hm, hloop⟩ := ih x hxt hmx
      refine ⟨a :: l1, y, l2, by simp [hdec], ?_, hm, ?_⟩
      · intro z hz
        rcases List.mem_cons.mp hz with h | h
        · subst h; simpa using ha
        · exact hnone z h
      · simp only [Bool.not_eq_true] at ha
        simp [addPositionLoop, ha, hloop]

/-- Conversely, a successful merge-loop run decomposes the slice around
the first matching slot. -/
theorem addPositionLoop_some_shape (pos : Position) (now : Nat) :
    ∀ (l ps : List Position), addPositionLoop pos now l = some ps →
    ∃ l1 y l2, l = l1 ++ y :: l2 ∧ mergeMatch y pos = true ∧
      ps = l1 ++ mergeInto y pos now :: l2 := by
  intro l
  induction l with
  | nil => intro ps h; simp [addPositionLoop] at h
  | cons a t ih =>
    intro ps h
    by_cases ha : mergeMatch a pos
    · rw [addPositionLoop, if_pos ha] at h
      exact ⟨[], a, t, rfl, ha, by simpa using h.symm⟩
    · rw [addPositionLoop, if_neg ha] at h
      obtain ⟨ps2, hps2, hcons⟩ := Option.map_eq_some'.mp h
      obtain ⟨l1, y, l2, hdec, hm, hps⟩ := ih ps2 hps2
      exact ⟨a :: l1, y, l2, by simp [hdec], hm, by simp [← hcons, hps]⟩

/-- A successful remove-loop run deletes exactly one slot. -/
theorem removePositionLoop_some_shape (id : String) :
    ∀ (l ps : List Position), removePositionLoop id l = some ps →
    ∃ l1 x l2, l = l1 ++ x :: l2 ∧ ps = l1 ++ l2 := by
  intro l
  induction l with
  | nil => intro ps h; simp [removePositionLoop] at h
  | cons a t ih =>
    intro ps h
    by_cases ha : a.ID == id
    · rw [removePositionLoop, if_pos ha] at h
      exact ⟨[], a, t, rfl, by simpa using h.symm⟩
    · rw [removePositionLoop, if_neg ha] at h
      obtain ⟨ps2, hps2, hcons⟩ := Option.map_eq_some'.mp h
      obtain ⟨l1, x, l2, hdec, hps⟩ := ih ps2 hps2
      exact ⟨a :: l1, x, l2, by simp [hdec], by simp [← hcons, hps]⟩

/-! ## C5 -/

/-- C5: for a valid incoming position, `AddPosition` merges into the first
slot matching by ID or by (non-empty) ISIN — summing invested amount and
quantity, overwriting the current price, stamping `LastUpdated`, and
preserving the slot's place and all other slots — and appends at the end
when no slot matches. -/
theorem c5_merge_semantics (p : Portfolio) (pos : Position) (now : Nat)
    (hv : pos.IsValid = true) :
    ((∃ x ∈ p.Positions, mergeMatch x pos = true) →
      ∃ l1 x l2, p.Positions = l1 ++ x :: l2 ∧
        (∀ y ∈ l1, mergeMatch y pos = false) ∧ mergeMatch x pos = true ∧
        p.AddPosition pos now = .ok { p with Positions := l1 ++
          { x with
            InvestedAmount := x.InvestedAmount.Add pos.InvestedAmount
            Quantity := x.Quantity.Add pos.Quantity
            CurrentPrice := pos.CurrentPrice
            LastUpdated := now } :: l2 }) ∧
    ((∀ x ∈ p.Positions, mergeMatch x pos = false) →
      p.AddPosition pos now = .ok { p with Positions := p.Positions ++ [pos] }) := by
  constructor
  · rintro ⟨x, hx, hmx⟩
    obtain ⟨l1, y, l2, hdec, hnone, hm, hloop⟩ :=
      addPositionLoop_some_of_match pos now p.Positions x hx hmx
    exact ⟨l1, y, l2, hdec, hnone, hm,
      by simp [Portfolio.AddPosition, hv, hloop, mergeInto]⟩
  · intro hall
    have hnone : addPositionLoop pos now p.Positions = none :=
      (addPositionLoop_none_iff pos now p.Positions).mpr hall
    simp [Portfolio.AddPosition, hv, hnone]

/-- Witness for C5: merging `wPos` into a portfolio already holding a
position with the same ISIN. -/
theorem c5_merge_semantics_witness :
    ∃ l1 x l2, wPortfolio.Positions = l1 ++ x :: l2 ∧
      (∀ y ∈ l1, mergeMatch y wPos = false) ∧ mergeMatch x wPos = true ∧
      wPortfolio.AddPosition wPos 9 = .ok { wPortfolio with Positions := l1 ++
        { x with
          InvestedAmount := x.InvestedAmount.Add wPos.InvestedAmount
          Quantity := x.Quantity.Add wPos.Quantity
          CurrentPrice := wPos.CurrentPrice
          LastUpdated := 9 } :: l2 } :=
  (c5_merge_semantics wPortfolio wPos 9 (by decide)).1
    ⟨wExisting, by decide, by decide⟩

/-! ## C4 -/

/-- Counting by ISIN distributes over append. -/
theorem countISIN_append (l1 l2 : List Position) (isin : String) :
    countISIN (l1 ++ l2) isin = countISIN l1 isin + countISIN l2 isin := by
  simp [countISIN, List.countP_append]

/-- A successful `AddPosition` preserves the at-most-one-per-ISIN bound. -/
theorem addPosition_preserves_unique (p p2 : Portfolio) (pos : Position)
    (now : Nat) (h : p.AddPosition pos now = .ok p2)
    (hu : ∀ isin, countISIN p.Positions isin ≤ 1) :
    ∀ isin, countISIN p2.Positions isin ≤ 1 := by
  unfold Portfolio.AddPosition at h
  by_cases hv : pos.IsValid
  case neg =>
    simp only [Bool.not_eq_true] at hv
    simp [hv] at h
  case pos =>
    rw [if_neg (by simp [hv])] at h
    cases hloop : addPositionLoop pos now p.Positions with
    | some ps =>
      rw [hloop] at h
      obtain ⟨l1, y, l2, hdec, _, hps⟩ :=
        addPositionLoop_some_shape pos now p.Positions ps hloop
      intro isin
      have hcount : countISIN ps isin = countISIN p.Positions isin := by
        rw [hdec, hps]
        simp [countISIN, List.countP_append, List.countP_cons, mergeInto]
      have hp2 : p2.Positions = ps := by
        cases h; rfl
      rw [hp2, hcount]
      exact hu isin
    | none =>
      rw [hloop] at h
      have hall := (addPositionLoop_none_iff pos now p.Positions).mp hloop
      have hp2 : p2.Positions = p.Positions ++ [pos] := by
        cases h; rfl
      intro isin
      rw [hp2, countISIN_append]
      by_cases hisin : pos.Instrument.ISIN == isin
      · have hzero : countISIN p.Positions isin = 0 := by
          rw [countISIN, List.countP_eq_zero]
          intro y hy
          simp only [beq_iff_eq] at hisin
          intro hmatch
          have hisy : y.Instrument.ISIN = pos.Instrument.ISIN := by
            simp only [beq_iff_eq] at hmatch
            rw [hmatch, hisin]
          have hne : pos.Instrument.ISIN ≠ "" := by
            have := hv
            simp only [Position.IsValid, Instrument.IsValid, Bool.and_eq_true,
              bne_iff_ne, ne_eq] at this
            tauto
          have : mergeMatch y pos = true := by
            simp [mergeMatch, hisy, hne]
          rw [hall y hy] at this
          exact Bool.noConfusion this
        rw [hzero]
        simp [countISIN, List.countP_cons, hisin]
      · rw [show countISIN [pos] isin = 0 by
          simp [countISIN, List.countP_cons, hisin]]
        simpa using hu isin


/-- A successful `RemovePosition` preserves the at-most-one-per-ISIN bound. -/
theorem removePosition_preserves_unique (p p2 : Portfolio) (id : String)
    (h : p.RemovePosition id = .ok p2)
    (hu : ∀ isin, countISIN p.Positions isin ≤ 1) :
    ∀ isin, countISIN p2.Positions isin ≤ 1 := by
  unfold Portfolio.RemovePosition at h
  cases hloop : removePositionLoop id p.Positions with
  | none => rw [hloop] at h; exact Except.noConfusion h
  | some ps =>
    rw [hloop] at h
    obtain ⟨l1, x, l2, hdec, hps⟩ :=
      removePositionLoop_some_shape id p.Positions ps hloop
    have hp2 : p2.Positions = ps := by cases h; rfl
    intro isin
    have hle : countISIN ps isin ≤ countISIN p.Positions isin := by
      rw [hdec, hps, countISIN_append, countISIN_append]
      have : countISIN l2 isin ≤ countISIN (x :: l2) isin := by
        simp only [countISIN, List.countP_cons]
        exact Nat.le_add_right _ _
      omega
    rw [hp2]
    exact le_trans hle (hu isin)

/-- C4: starting from a fresh portfolio, after any sequence of
`AddPosition` / `RemovePosition` calls that all return without error,
every ISIN is carried by at most one position.  (Every intermediate
state is itself the result of such a sequence, so the bound holds at
every point.) -/
theorem c4_isin_unique (name freshID : String) (created : Nat)
    (ops : List PortfolioOp) (p2 : Portfolio)
    (h : runOps (NewPortfolio name freshID created) ops = .ok p2) :
    ∀ isin, countISIN p2.Positions isin ≤ 1 := by
  have main : ∀ (ops : List PortfolioOp) (p p2 : Portfolio),
      (∀ isin, countISIN p.Positions isin ≤ 1) →
      runOps p ops = .ok p2 → ∀ isin, countISIN p2.Positions isin ≤ 1 := by
    intro ops
    induction ops with
    | nil =>
      intro p p2 hu h
      rw [runOps] at h
      cases h
      exact hu
    | cons op t ih =>
      intro p p2 hu h
      rw [runOps] at h
      cases hap : applyOp p op with
      | error e => rw [hap] at h; exact Except.noConfusion h
      | ok pm =>
        rw [hap] at h
        refine ih pm p2 ?_ h
        cases op with
        | add pos now => exact addPosition_preserves_unique p pm pos now hap hu
        | remove id => exact removePosition_preserves_unique p pm id hap hu
  exact main ops _ p2 (by intro isin; simp [NewPortfolio, countISIN]) h

/-- Witness for C4: a two-operation run (an add then a remove). -/
theorem c4_isin_unique_witness :
    countISIN
      { ID := "p", Name := "t", Positions := ([] : List Position),
        LastUpdated := 0, CreatedAt := 0 : Portfolio }.Positions "I" ≤ 1 :=
  c4_isin_unique "t" "p" 0 [.add wPos 1, .remove "idB"] _ (by rfl) "I"

/-- A valid position is always accepted by `AddPosition` (both the merge
branch and the append branch return without error). -/
theorem addPosition_ok_of_valid (p : Portfolio) (pos : Position) (now : Nat)
    (hv : pos.IsValid = true) : ∃ p2, p.AddPosition pos now = .ok p2 := by
  unfold Portfolio.AddPosition
  rw [if_neg (by simp [hv])]
  cases addPositionLoop pos now p.Positions <;> exact ⟨_, rfl⟩

/-- After a successful `AddPosition` whose position ID is fresh, some slot
carries the incoming ISIN (the appended position itself, or the merged
slot, which shares the ISIN because the ID cannot have matched). -/
theorem addPosition_ok_isin_present (p p2 : Portfolio) (pos : Position)
    (now : Nat) (h : p.AddPosition pos now = .ok p2)
    (hfresh : ∀ q ∈ p.Positions, q.ID ≠ pos.ID) :
    ∃ q ∈ p2.Positions, q.Instrument.ISIN = pos.Instrument.ISIN := by
  unfold Portfolio.AddPosition at h
  by_cases hv : pos.IsValid
  case neg =>
    simp only [Bool.not_eq_true] at hv
    simp [hv] at h
  case pos =>
    rw [if_neg (by simp [hv])] at h
    cases hloop : addPositionLoop pos now p.Positions with
    | some ps =>
      rw [hloop] at h
      obtain ⟨l1, y, l2, hdec, hm, hps⟩ :=
        addPositionLoop_some_shape pos now p.Positions ps hloop
      have hyID : (y.ID == pos.ID) = false := by
        have hy : y ∈ p.Positions := by rw [hdec]; simp
        simpa [beq_eq_false_iff_ne] using hfresh y hy
      have hisin : y.Instrument.ISIN = pos.Instrument.ISIN := by
        simp only [mergeMatch, hyID, Bool.false_or, Bool.and_eq_true,
          beq_iff_eq] at hm
        exact hm.1
      have hp2 : p2.Positions = ps := by cases h; rfl
      refine ⟨mergeInto y pos now, ?_, ?_⟩
      · rw [hp2, hps]; simp
      · simpa [mergeInto] using hisin
    | none =>
      rw [hloop] at h
      have hp2 : p2.Positions = p.Positions ++ [pos] := by cases h; rfl
      exact ⟨pos, by rw [hp2]; simp, rfl⟩

/-! ## C10 -/

/-- C10: when every provider step succeeds but `repo.Save` fails, the
single-item `AddPosition` use case returns the save error, yet the
aggregate already contains the added (or merged) position, which
`ListPositions` and `GetPortfolioSummary` then observe. -/
theorem c10_add_not_atomic (portfolio : Portfolio) (instrument : Instrument)
    (quote : QuoteResult) (price investedAmount : Dec)
    (currency freshID : String) (now : Nat) (e : String)
    (hparse : NewDecimalFromString quote.Price = .ok price)
    (hval : instrument.IsValid = true) (hinv : investedAmount.IsZero = false)
    (hcur : currency ≠ "") (hid : freshID ≠ "")
    (hfresh : ∀ q ∈ portfolio.Positions, q.ID ≠ freshID) :
    ∃ p2, ServiceAddPosition portfolio (.ok instrument) (fun _ => .ok quote)
        (some e) investedAmount currency freshID now
        = (.error ("failed to save portfolio: " ++ e), p2) ∧
      (∃ q ∈ ListPositions p2, q.Instrument.ISIN = instrument.ISIN) ∧
      GetPortfolioSummary p2 = p2 := by
  have hvalid : (NewPosition instrument investedAmount currency freshID now).IsValid = true := by
    simp [NewPosition, Position.IsValid, hval, hinv, hcur, hid, bne_iff_ne]
  set pos0 := NewPosition instrument investedAmount currency freshID now with hpos0
  set pos2 := { pos0 with
    CurrentPrice := price
    LastUpdated := now
    Quantity :=
      if !price.IsZero && !pos0.InvestedAmount.IsZero then pos0.InvestedAmount.div20 price
      else pos0.Quantity } with hpos2
  have hvalid2 : pos2.IsValid = true := by
    simpa [Position.IsValid, hpos2] using hvalid
  obtain ⟨p2, hp2⟩ := addPosition_ok_of_valid portfolio pos2 now hvalid2
  refine ⟨p2, ?_, ?_, rfl⟩
  · simp only [ServiceAddPosition, hparse, ← hpos0, updatePrice_total, ← hpos2, hp2]
  · have hpres := addPosition_ok_isin_present portfolio p2 pos2 now hp2
      (by intro q hq; simpa [hpos2, hpos0, NewPosition] using hfresh q hq)
    simpa [ListPositions, hpos2, hpos0, NewPosition] using hpres

/-- Witness for C10: a fresh default portfolio, a fully successful
provider interaction, and a failing save. -/
theorem c10_add_not_atomic_witness :
    ∃ p2, ServiceAddPosition (NewPortfolio "default" "pid" 0) (.ok wInstrument)
        (fun _ => .ok ⟨"S", "150", "USD", "t"⟩)
        (some "db down") (NewDecimalFromInt 1000) "USD" "fid" 0
        = (.error ("failed to save portfolio: " ++ "db down"), p2) ∧
      (∃ q ∈ ListPositions p2, q.Instrument.ISIN = wInstrument.ISIN) ∧
      GetPortfolioSummary p2 = p2 :=
  c10_add_not_atomic (NewPortfolio "default" "pid" 0) wInstrument
    ⟨"S", "150", "USD", "t"⟩ ⟨150, 0⟩ (NewDecimalFromInt 1000) "USD" "fid" 0
    "db down" (by rfl) (by decide) (by decide) (by decide) (by decide)
    (by intro q hq; simp [NewPortfolio] at hq)

/-! ## C3 -/

/-- C3: `AddPositionsBatch` performs the commit exactly once, only when
the pre-commit `Successful` slice is non-empty (the boolean in the
result records the single `Save` call site being reached); when that
save fails, every successful entry is demoted to `Failed` with the save
error as its cause and `Successful` comes back empty, and when it
succeeds the pre-commit result is returned unchanged. -/
theorem c3_commit_atomicity (portfolio : Portfolio) (provider : ProviderModel)
    (requests : List AddPositionBatchRequest) (freshID : String → String)
    (now : Nat) (saveErr : Option String)
    (pre : AddPositionsBatchResult) (p2 : Portfolio)
    (hpre : AddPositionsBatchPre portfolio provider requests freshID now
      = some (pre, p2)) :
    ∃ res saveCalled,
      AddPositionsBatch portfolio provider requests freshID now saveErr
        = some (res, p2, saveCalled) ∧
      (saveCalled = true ↔ pre.Successful ≠ []) ∧
      (∀ e, saveErr = some e → pre.Successful ≠ [] →
        res.Successful = [] ∧
        res.Failed = pre.Failed ++ pre.Successful.map
          (fun pos => ⟨pos.ISIN, none, some ("failed to save portfolio: " ++ e)⟩)) ∧
      (saveErr = none → res = pre) := by
  refine ⟨(commitStage pre saveErr).1, (commitStage pre saveErr).2, ?_, ?_, ?_, ?_⟩
  · rw [AddPositionsBatch, hpre]
  · unfold commitStage
    by_cases hlen : pre.Successful.length > 0
    · have hne : pre.Successful ≠ [] := by
        intro hnil
        rw [hnil] at hlen
        simp at hlen
      cases saveErr <;> simp [hlen, hne]
    · have hnil : pre.Successful = [] := by
        cases hS : pre.Successful with
        | nil => rfl
        | cons a t => rw [hS] at hlen; simp at hlen
      simp [hlen, hnil]
  · intro e he hne
    subst he
    have hlen : pre.Successful.length > 0 := by
      cases hS : pre.Successful with
      | nil => exact absurd hS hne
      | cons a t => simp
    unfold commitStage
    simp [hlen]
  · intro he
    subst he
    unfold commitStage
    by_cases hlen : pre.Successful.length > 0 <;> simp [hlen]

/-- Witness for C3: the one-request happy-path batch with a failing save. -/
theorem c3_commit_atomicity_witness :
    ∃ res saveCalled,
      AddPositionsBatch cexPortfolio w2Provider w2Requests
        (fun i => i ++ "-id") 0 (some "db down")
        = some (res, w2Portfolio, saveCalled) ∧
      (saveCalled = true ↔ w2Pre.Successful ≠ []) ∧
      (∀ e, (some "db down" : Option String) = some e → w2Pre.Successful ≠ [] →
        res.Successful = [] ∧
        res.Failed = w2Pre.Failed ++ w2Pre.Successful.map
          (fun pos => ⟨pos.ISIN, none, some ("failed to save portfolio: " ++ e)⟩)) ∧
      ((some "db down" : Option String) = none → res = w2Pre) :=
  c3_commit_atomicity cexPortfolio w2Provider w2Requests (fun i => i ++ "-id")
    0 (some "db down") w2Pre w2Portfolio (by decide)

/-! ## C2 — counterexample -/

/-- C2 is false as stated: with two request ISINs whose instruments share
one symbol and a failing quote for that symbol, the quote failure is
booked against the single ISIN retained by the `symbol → ISIN` map while
the other ISIN is skipped by the assembly loop, landing in neither
`Successful` nor `Failed`. -/
theorem c2_partition_counterexample :
    ¬ BatchPartitionClaim cexPortfolio cexProvider cexRequests
      (fun isin => isin ++ "-id") 0 none := by
  intro h
  have h2 := (h ⟨[], [⟨"B", none, some "failed to get quote: boom"⟩]⟩
      cexPortfolio false (by decide)).1 "A"
  revert h2
  decide

/-! ## Association-map lemmas -/

theorem AMap.keys_cons {α : Type} (kv : String × α) (rest : AMap α) :
    AMap.keys (kv :: rest) = kv.1 :: AMap.keys rest := rfl

theorem AMap.lookup_cons {α : Type} (kv : String × α) (rest : AMap α) (k : String) :
    AMap.lookup (kv :: rest) k =
      if kv.1 == k then some kv.2 else AMap.lookup rest k := by
  by_cases h : (kv.1 == k) = true
  · rw [if_pos h]
    simp only [AMap.lookup]
    rw [@List.find?_cons_of_pos _ (fun kv => kv.1 == k) kv rest h]
    rfl
  · rw [if_neg h]
    simp only [AMap.lookup]
    rw [@List.find?_cons_of_neg _ (fun kv => kv.1 == k) kv rest h]

theorem AMap.insert_cons {α : Type} (kv : String × α) (rest : AMap α)
    (k : String) (v : α) :
    AMap.insert (kv :: rest) k v =
      if kv.1 == k then (k, v) :: rest else kv :: AMap.insert rest k v := rfl

theorem AMap.mem_keys_insert {α : Type} (m : AMap α) (k k' : String) (v : α) :
    k' ∈ (m.insert k v).keys ↔ k' ∈ m.keys ∨ k' = k := by
  induction m with
  | nil => simp [AMap.insert, AMap.keys]
  | cons kv rest ih =>
    cases hk : kv.1 == k with
    | true =>
      simp only [beq_iff_eq] at hk
      simp [AMap.insert_cons, hk, AMap.keys_cons]
      tauto
    | false =>
      rw [AMap.insert_cons, if_neg (by simp [hk])]
      simp only [AMap.keys_cons, List.mem_cons, ih]
      tauto

theorem AMap.keys_nodup_insert {α : Type} (m : AMap α) (k : String) (v : α)
    (h : m.keys.Nodup) : (m.insert k v).keys.Nodup := by
  induction m with
  | nil => simp [AMap.insert, AMap.keys]
  | cons kv rest ih =>
    rw [AMap.keys_cons, List.nodup_cons] at h
    cases hk : kv.1 == k with
    | true =>
      simp only [beq_iff_eq] at hk
      simp only [AMap.insert_cons, hk, beq_self_eq_true, if_true,
        AMap.keys_cons, List.nodup_cons]
      exact ⟨hk ▸ h.1, h.2⟩
    | false =>
      rw [AMap.insert_cons, if_neg (by simp [hk])]
      simp only [AMap.keys_cons, List.nodup_cons]
      refine ⟨?_, ih h.2⟩
      intro hmem
      rcases (AMap.mem_keys_insert rest k kv.1 v).mp hmem with hh | hh
      · exact h.1 hh
      · simp [hh] at hk

theorem AMap.mem_insert {α : Type} (m : AMap α) (k k' : String) (v v' : α)
    (h : (k', v') ∈ m.insert k v) : (k', v') = (k, v) ∨ (k', v') ∈ m := by
  induction m with
  | nil => simpa [AMap.insert] using h
  | cons kv rest ih =>
    cases hk : kv.1 == k with
    | true =>
      rw [AMap.insert_cons, if_pos hk] at h
      rcases List.mem_cons.mp h with hh | hh
      · exact Or.inl hh
      · exact Or.inr (List.mem_cons_of_mem _ hh)
    | false =>
      rw [AMap.insert_cons, if_neg (by simp [hk])] at h
      rcases List.mem_cons.mp h with hh | hh
      · exact Or.inr (hh ▸ List.mem_cons_self _ _)
      · rcases ih hh with hh2 | hh2
        · exact Or.inl hh2
        · exact Or.inr (List.mem_cons_of_mem _ hh2)

theorem AMap.lookup_insert_self {α : Type} (m : AMap α) (k : String) (v : α) :
    (m.insert k v).lookup k = some v := by
  induction m with
  | nil => simp [AMap.insert, AMap.lookup]
  | cons kv rest ih =>
    cases hk : kv.1 == k with
    | true => simp [AMap.insert_cons, hk, AMap.lookup_cons]
    | false => simp [AMap.insert_cons, hk, AMap.lookup_cons, ih]

theorem AMap.lookup_insert_ne {α : Type} (m : AMap α) (k k' : String) (v : α)
    (h : k' ≠ k) : (m.insert k v).lookup k' = m.lookup k' := by
  have hkk : (k == k') = false := by simpa [beq_eq_false_iff_ne] using Ne.symm h
  induction m with
  | nil => simp [AMap.insert, AMap.lookup, List.find?, hkk]
  | cons kv rest ih =>
    cases hk : kv.1 == k with
    | true =>
      have h2 : (kv.1 == k') = false := by
        simp only [beq_iff_eq] at hk
        simpa [beq_eq_false_iff_ne, hk] using Ne.symm h
      simp [AMap.insert_cons, hk, AMap.lookup_cons, hkk, h2]
    | false =>
      cases hk' : kv.1 == k' with
      | true => simp [AMap.insert_cons, hk, AMap.lookup_cons, hk']
      | false => simp [AMap.insert_cons, hk, AMap.lookup_cons, hk', ih]

theorem AMap.lookup_mem {α : Type} (m : AMap α) (k : String) (v : α)
    (h : m.lookup k = some v) : (k, v) ∈ m := by
  induction m with
  | nil => simp [AMap.lookup] at h
  | cons kv rest ih =>
    rw [AMap.lookup_cons] at h
    cases hk : kv.1 == k with
    | true =>
      rw [if_pos hk] at h
      simp only [beq_iff_eq] at hk
      rw [Option.some_inj] at h
      have hkv : kv = (k, v) := by
        cases kv
        simp_all
      rw [← hkv]
      exact List.mem_cons_self _ _
    | false =>
      rw [if_neg (by simp [hk])] at h
      exact List.mem_cons_of_mem _ (ih h)

theorem AMap.lookup_isSome_of_mem_keys {α : Type} (m : AMap α) (k : String)
    (h : k ∈ m.keys) : (m.lookup k).isSome = true := by
  induction m with
  | nil => simp [AMap.keys] at h
  | cons kv rest ih =>
    rw [AMap.lookup_cons]
    by_cases hk : (kv.1 == k) = true
    · rw [if_pos hk]; rfl
    · rw [if_neg hk]
      rw [AMap.keys_cons, List.mem_cons] at h
      rcases h with h | h
      · exact absurd (by simp [h]) hk
      · exact ih h

theorem AMap.mem_keys_of_lookup {α : Type} (m : AMap α) (k : String) (v : α)
    (h : m.lookup k = some v) : k ∈ m.keys := by
  have := AMap.lookup_mem m k v h
  simp only [AMap.keys, List.mem_map]
  exact ⟨(k, v), this, rfl⟩

theorem AMap.keys_erase {α : Type} (m : AMap α) (k : String) :
    (m.erase k).keys = m.keys.filter (fun x => x != k) := by
  induction m with
  | nil => rfl
  | cons kv rest ih =>
    simp only [AMap.erase, AMap.keys] at ih ⊢
    rw [List.filter_cons, List.map_cons, List.filter_cons]
    cases hk : kv.1 != k with
    | true => rw [if_pos (by simp [hk]), if_pos (by simp [hk]), List.map_cons, ih]
    | false => rw [if_neg (by simp [hk]), if_neg (by simp [hk]), ih]

theorem AMap.mem_keys_erase {α : Type} (m : AMap α) (k k' : String) :
    k' ∈ (m.erase k).keys ↔ k' ∈ m.keys ∧ k' ≠ k := by
  rw [AMap.keys_erase]
  simp [List.mem_filter, bne_iff_ne]

theorem AMap.keys_nodup_erase {α : Type} (m : AMap α) (k : String)
    (h : m.keys.Nodup) : (m.erase k).keys.Nodup := by
  rw [AMap.keys_erase]
  exact h.filter _

theorem AMap.mem_of_mem_erase {α : Type} (m : AMap α) (k : String)
    (kv : String × α) (h : kv ∈ m.erase k) : kv ∈ m :=
  List.mem_of_mem_filter h

/-! ## Collection-loop lemmas -/

/-- Everything the partition proof needs about one classify fold: key
membership of both maps, key nodup preservation, and binding
provenance. -/
theorem classify_go {τ β : Type} (key : τ → String) (errOf : τ → Option String)
    (payload : τ → β) (xs : List τ) :
    ∀ acc : AMap β × AMap String,
      (∀ k, k ∈ (xs.foldl (classifyStep key errOf payload) acc).1.keys ↔
        k ∈ acc.1.keys ∨ ∃ x ∈ xs, key x = k ∧ errOf x = none) ∧
      (∀ k, k ∈ (xs.foldl (classifyStep key errOf payload) acc).2.keys ↔
        k ∈ acc.2.keys ∨ ∃ x ∈ xs, key x = k ∧ errOf x ≠ none) ∧
      (acc.1.keys.Nodup →
        (xs.foldl (classifyStep key errOf payload) acc).1.keys.Nodup) ∧
      (acc.2.keys.Nodup →
        (xs.foldl (classifyStep key errOf payload) acc).2.keys.Nodup) ∧
      (∀ kv ∈ (xs.foldl (classifyStep key errOf payload) acc).1,
        kv ∈ acc.1 ∨ ∃ x ∈ xs, key x = kv.1 ∧ errOf x = none ∧ payload x = kv.2) := by
  induction xs with
  | nil => intro acc; simp
  | cons x rest ih =>
    intro acc
    rw [List.foldl_cons]
    cases hx : errOf x with
    | some e =>
      have hstep : classifyStep key errOf payload acc x
          = (acc.1, acc.2.insert (key x) e) := by
        simp [classifyStep, hx]
      rw [hstep]
      obtain ⟨ih1, ih2, ih3, ih4, ih5⟩ := ih (acc.1, acc.2.insert (key x) e)
      refine ⟨?_, ?_, ih3, fun h => ih4 (AMap.keys_nodup_insert _ _ _ h), ?_⟩
      · intro k
        rw [ih1 k]
        constructor
        · rintro (h | ⟨x2, hx2, h2⟩)
          · exact Or.inl h
          · exact Or.inr ⟨x2, List.mem_cons_of_mem _ hx2, h2⟩
        · rintro (h | ⟨x2, hx2, hkey, herr⟩)
          · exact Or.inl h
          · rcases List.mem_cons.mp hx2 with h2 | h2
            · subst h2; exact absurd herr (by simp [hx])
            · exact Or.inr ⟨x2, h2, hkey, herr⟩
      · intro k
        rw [ih2 k, AMap.mem_keys_insert]
        constructor
        · rintro ((h | h) | ⟨x2, hx2, h2⟩)
          · exact Or.inl h
          · exact Or.inr ⟨x, List.mem_cons_self _ _, h.symm, by simp [hx]⟩
          · exact Or.inr ⟨x2, List.mem_cons_of_mem _ hx2, h2⟩
        · rintro (h | ⟨x2, hx2, hkey, herr⟩)
          · exact Or.inl (Or.inl h)
          · rcases List.mem_cons.mp hx2 with h2 | h2
            · subst h2; exact Or.inl (Or.inr hkey.symm)
            · exact Or.inr ⟨x2, h2, hkey, herr⟩
      · intro kv hkv
        rcases ih5 kv hkv with h | ⟨x2, hx2, h2⟩
        · exact Or.inl h
        · exact Or.inr ⟨x2, List.mem_cons_of_mem _ hx2, h2⟩
    | none =>
      have hstep : classifyStep key errOf payload acc x
          = (acc.1.insert (key x) (payload x), acc.2) := by
        simp [classifyStep, hx]
      rw [hstep]
      obtain ⟨ih1, ih2, ih3, ih4, ih5⟩ := ih (acc.1.insert (key x) (payload x), acc.2)
      refine ⟨?_, ?_, fun h => ih3 (AMap.keys_nodup_insert _ _ _ h), ih4, ?_⟩
      · intro k
        rw [ih1 k, AMap.mem_keys_insert]
        constructor
        · rintro ((h | h) | ⟨x2, hx2, h2⟩)
          · exact Or.inl h
          · exact Or.inr ⟨x, List.mem_cons_self _ _, h.symm, hx⟩
          · exact Or.inr ⟨x2, List.mem_cons_of_mem _ hx2, h2⟩
        · rintro (h | ⟨x2, hx2, hkey, herr⟩)
          · exact Or.inl (Or.inl h)
          · rcases List.mem_cons.mp hx2 with h2 | h2
            · subst h2; exact Or.inl (Or.inr hkey.symm)
            · exact Or.inr ⟨x2, h2, hkey, herr⟩
      · intro k
        rw [ih2 k]
        constructor
        · rintro (h | ⟨x2, hx2, h2⟩)
          · exact Or.inl h
          · exact Or.inr ⟨x2, List.mem_cons_of_mem _ hx2, h2⟩
        · rintro (h | ⟨x2, hx2, hkey, herr⟩)
          · exact Or.inl h
          · rcases List.mem_cons.mp hx2 with h2 | h2
            · subst h2; exact absurd hx herr
            · exact Or.inr ⟨x2, h2, hkey, herr⟩
      · intro kv hkv
        rcases ih5 kv hkv with h | ⟨x2, hx2, h2⟩
        · rcases AMap.mem_insert _ _ _ _ _ h with h2 | h2
          · refine Or.inr ⟨x, List.mem_cons_self _ _, ?_, hx, ?_⟩
            · rw [show kv.1 = key x from congrArg Prod.fst h2 ▸ rfl]
            · rw [show kv.2 = payload x from congrArg Prod.snd h2 ▸ rfl]
          · exact Or.inl h2
        · exact Or.inr ⟨x2, List.mem_cons_of_mem _ hx2, h2⟩

/-- Key membership and nodup for the `ISIN → request` map. -/
theorem buildRequestMap_go (requests : List AddPositionBatchRequest) :
    ∀ m0 : AMap AddPositionBatchRequest,
      (∀ isin, isin ∈ (requests.foldl (fun m r => m.insert r.ISIN r) m0).keys ↔
        isin ∈ m0.keys ∨ isin ∈ requests.map AddPositionBatchRequest.ISIN) ∧
      (m0.keys.Nodup →
        (requests.foldl (fun m r => m.insert r.ISIN r) m0).keys.Nodup) := by
  induction requests with
  | nil => intro m0; simp
  | cons r rest ih =>
    intro m0
    rw [List.foldl_cons]
    refine ⟨?_, fun h => (ih _).2 (AMap.keys_nodup_insert _ _ _ h)⟩
    intro isin
    rw [(ih (m0.insert r.ISIN r)).1 isin, AMap.mem_keys_insert]
    simp only [List.map_cons, List.mem_cons]
    tauto

/-! ## Symbol-collection lemmas -/

/-- With only non-nil instruments stored, symbol collection does not
panic. -/
theorem collectSymbolsGo_total :
    ∀ (instruments : List (String × Option Instrument))
      (syms0 : List String) (m0 : AMap String),
      (∀ kv ∈ instruments, (kv.2).isSome = true) →
      ∃ syms stoi, collectSymbolsGo instruments syms0 m0 = some (syms, stoi) := by
  intro instruments
  induction instruments with
  | nil => intro syms0 m0 _; exact ⟨syms0, m0, rfl⟩
  | cons kv rest ih =>
    intro syms0 m0 hsome
    obtain ⟨k, oi⟩ := kv
    cases oi with
    | none => exact absurd (hsome (k, none) (List.mem_cons_self _ _)) (by simp)
    | some inst =>
      obtain ⟨syms, stoi, h⟩ := ih (syms0 ++ [inst.Symbol])
        (m0.insert inst.Symbol k) (fun kv2 h2 => hsome kv2 (List.mem_cons_of_mem _ h2))
      exact ⟨syms, stoi, h⟩

/-- The collected symbols are exactly the symbols of the stored
instruments (plus the accumulator). -/
theorem collectSymbolsGo_syms :
    ∀ (instruments : List (String × Option Instrument))
      (syms0 : List String) (m0 : AMap String) (syms : List String)
      (stoi : AMap String),
      collectSymbolsGo instruments syms0 m0 = some (syms, stoi) →
      ∀ s, s ∈ syms ↔ s ∈ syms0 ∨
        ∃ isin inst, (isin, some inst) ∈ instruments ∧ inst.Symbol = s := by
  intro instruments
  induction instruments with
  | nil =>
    intro syms0 m0 syms stoi h s
    cases h
    simp
  | cons kv rest ih =>
    intro syms0 m0 syms stoi h s
    obtain ⟨k, oi⟩ := kv
    cases oi with
    | none => exact absurd h (by simp [collectSymbolsGo])
    | some inst =>
      rw [collectSymbolsGo] at h
      rw [ih _ _ _ _ h s]
      constructor
      · rintro (h1 | ⟨isin, i2, h2, h3⟩)
        · rcases List.mem_append.mp h1 with h1 | h1
          · exact Or.inl h1
          · exact Or.inr ⟨k, inst, List.mem_cons_self _ _,
              (List.mem_singleton.mp h1).symm⟩
        · exact Or.inr ⟨isin, i2, List.mem_cons_of_mem _ h2, h3⟩
      · rintro (h1 | ⟨isin, i2, h2, h3⟩)
        · exact Or.inl (List.mem_append.mpr (Or.inl h1))
        · rcases List.mem_cons.mp h2 with h2 | h2
          · rw [Prod.mk.injEq, Option.some_inj] at h2
            refine Or.inl (List.mem_append.mpr (Or.inr ?_))
            rw [List.mem_singleton, ← h3, h2.2]
          · exact Or.inr ⟨isin, i2, h2, h3⟩

/-- A `symbol → ISIN` binding can only come from a stored instrument with
that symbol (or from the accumulator). -/
theorem collectSymbolsGo_lookup_mem :
    ∀ (instruments : List (String × Option Instrument))
      (syms0 : List String) (m0 : AMap String) (syms : List String)
      (stoi : AMap String),
      collectSymbolsGo instruments syms0 m0 = some (syms, stoi) →
      ∀ s isin, stoi.lookup s = some isin →
        m0.lookup s = some isin ∨
          ∃ inst, (isin, some inst) ∈ instruments ∧ inst.Symbol = s := by
  intro instruments
  induction instruments with
  | nil =>
    intro syms0 m0 syms stoi h s isin hl
    cases h
    exact Or.inl hl
  | cons kv rest ih =>
    intro syms0 m0 syms stoi h s isin hl
    obtain ⟨k, oi⟩ := kv
    cases oi with
    | none => exact absurd h (by simp [collectSymbolsGo])
    | some inst =>
      rw [collectSymbolsGo] at h
      rcases ih _ _ _ _ h s isin hl with h1 | ⟨i2, h2, h3⟩
      · by_cases hs : s = inst.Symbol
        · subst hs
          rw [AMap.lookup_insert_self] at h1
          rw [Option.some_inj] at h1
          exact Or.inr ⟨inst, by rw [h1]; exact List.mem_cons_self _ _, rfl⟩
        · rw [AMap.lookup_insert_ne _ _ _ _ hs] at h1
          exact Or.inl h1
      · exact Or.inr ⟨i2, List.mem_cons_of_mem _ h2, h3⟩

/-- If no stored instrument carries symbol `s`, the `symbol → ISIN` map is
unchanged at `s`. -/
theorem collectSymbolsGo_frozen :
    ∀ (instruments : List (String × Option Instrument))
      (syms0 : List String) (m0 : AMap String) (syms : List String)
      (stoi : AMap String),
      collectSymbolsGo instruments syms0 m0 = some (syms, stoi) →
      ∀ s, (∀ kv ∈ instruments, ∀ i2 : Instrument, kv.2 = some i2 → i2.Symbol ≠ s) →
        stoi.lookup s = m0.lookup s := by
  intro instruments
  induction instruments with
  | nil =>
    intro syms0 m0 syms stoi h s _
    cases h
    rfl
  | cons kv rest ih =>
    intro syms0 m0 syms stoi h s hno
    obtain ⟨k, oi⟩ := kv
    cases oi with
    | none => exact absurd h (by simp [collectSymbolsGo])
    | some inst =>
      rw [collectSymbolsGo] at h
      have hne : inst.Symbol ≠ s := hno (k, some inst) (List.mem_cons_self _ _) inst rfl
      rw [ih _ _ _ _ h s (fun kv2 h2 => hno kv2 (List.mem_cons_of_mem _ h2))]
      exact AMap.lookup_insert_ne _ _ _ _ (Ne.symm hne)

/-- Forward lookup: a stored instrument's symbol maps back to its ISIN,
provided the stored keys are distinct and the instrument symbols are
injective over the bindings. -/
theorem collectSymbolsGo_lookup :
    ∀ (instruments : List (String × Option Instrument))
      (syms0 : List String) (m0 : AMap String) (syms : List String)
      (stoi : AMap String),
      collectSymbolsGo instruments syms0 m0 = some (syms, stoi) →
      ∀ isin inst, (isin, some inst) ∈ instruments →
        (∀ kv2 ∈ instruments, ∀ i2 : Instrument, kv2.2 = some i2 →
          i2.Symbol = inst.Symbol → kv2.1 = isin) →
        (List.map Prod.fst instruments).Nodup →
        stoi.lookup inst.Symbol = some isin := by
  intro instruments
  induction instruments with
  | nil =>
    intro syms0 m0 syms stoi h isin inst hmem
    simp at hmem
  | cons kv rest ih =>
    intro syms0 m0 syms stoi h isin inst hmem hinj hnd
    obtain ⟨k, oi⟩ := kv
    cases oi with
    | none => exact absurd h (by simp [collectSymbolsGo])
    | some i0 =>
      rw [collectSymbolsGo] at h
      rw [List.map_cons, List.nodup_cons] at hnd
      rcases List.mem_cons.mp hmem with hh | hh
      · rw [Prod.mk.injEq, Option.some_inj] at hh
        obtain ⟨hk, hi⟩ := hh
        subst hk
        subst hi
        refine Eq.trans
          (collectSymbolsGo_frozen rest _ _ _ _ h inst.Symbol ?_)
          (AMap.lookup_insert_self _ _ _)
        intro kv2 h2 i2 hi2 hsym
        have hkeq := hinj kv2 (List.mem_cons_of_mem _ h2) i2 hi2 hsym
        have hmem2 : isin ∈ List.map Prod.fst rest := by
          rw [← hkeq]
          exact List.mem_map.mpr ⟨kv2, h2, rfl⟩
        exact hnd.1 hmem2
      · exact ih _ _ _ _ h isin inst hh
          (fun kv2 h2 => hinj kv2 (List.mem_cons_of_mem _ h2)) hnd.2

/-! ## Error-bookkeeping lemmas -/

theorem processSearchErrors_failed :
    ∀ (errs : AMap String) (failed : List AddPositionResult)
      (m : AMap AddPositionBatchRequest),
      (processSearchErrors errs failed m).1
        = failed ++ errs.map (fun kv => ⟨kv.1, none, some kv.2⟩) := by
  intro errs
  induction errs with
  | nil => intro failed m; simp [processSearchErrors]
  | cons kv rest ih =>
    intro failed m
    obtain ⟨k, e⟩ := kv
    rw [processSearchErrors, ih]
    simp

theorem processSearchErrors_keys :
    ∀ (errs : AMap String) (failed : List AddPositionResult)
      (m : AMap AddPositionBatchRequest) (isin : String),
      isin ∈ (processSearchErrors errs failed m).2.keys ↔
        isin ∈ m.keys ∧ isin ∉ errs.keys := by
  intro errs
  induction errs with
  | nil => intro failed m isin; simp [processSearchErrors, AMap.keys]
  | cons kv rest ih =>
    intro failed m isin
    obtain ⟨k, e⟩ := kv
    rw [processSearchErrors, ih, AMap.mem_keys_erase, AMap.keys_cons,
      List.mem_cons]
    tauto

theorem processSearchErrors_mem :
    ∀ (errs : AMap String) (failed : List AddPositionResult)
      (m : AMap AddPositionBatchRequest) (kv : String × AddPositionBatchRequest),
      kv ∈ (processSearchErrors errs failed m).2 → kv ∈ m := by
  intro errs
  induction errs with
  | nil => intro failed m kv h; exact h
  | cons kv2 rest ih =>
    intro failed m kv h
    obtain ⟨k, e⟩ := kv2
    rw [processSearchErrors] at h
    exact AMap.mem_of_mem_erase _ _ _ (ih _ _ _ h)

theorem processSearchErrors_nodup :
    ∀ (errs : AMap String) (failed : List AddPositionResult)
      (m : AMap AddPositionBatchRequest),
      m.keys.Nodup → (processSearchErrors errs failed m).2.keys.Nodup := by
  intro errs
  induction errs with
  | nil => intro failed m h; exact h
  | cons kv rest ih =>
    intro failed m h
    obtain ⟨k, e⟩ := kv
    rw [processSearchErrors]
    exact ih _ _ (AMap.keys_nodup_erase _ _ h)

theorem processQuoteErrors_failed :
    ∀ (qerrs : AMap String) (stoi : AMap String)
      (failed : List AddPositionResult) (m : AMap AddPositionBatchRequest),
      (processQuoteErrors qerrs stoi failed m).1
        = failed ++ qerrs.map (fun kv =>
            ⟨(stoi.lookup kv.1).getD "", none,
              some ("failed to get quote: " ++ kv.2)⟩) := by
  intro qerrs
  induction qerrs with
  | nil => intro stoi failed m; simp [processQuoteErrors]
  | cons kv rest ih =>
    intro stoi failed m
    obtain ⟨k, e⟩ := kv
    rw [processQuoteErrors, ih]
    simp

theorem processQuoteErrors_keys :
    ∀ (qerrs : AMap String) (stoi : AMap String)
      (failed : List AddPositionResult) (m : AMap AddPositionBatchRequest)
      (isin : String),
      isin ∈ (processQuoteErrors qerrs stoi failed m).2.keys ↔
        isin ∈ m.keys ∧
          isin ∉ qerrs.map (fun kv => (stoi.lookup kv.1).getD "") := by
  intro qerrs
  induction qerrs with
  | nil => intro stoi failed m isin; simp [processQuoteErrors]
  | cons kv rest ih =>
    intro stoi failed m isin
    obtain ⟨k, e⟩ := kv
    rw [processQuoteErrors, ih, AMap.mem_keys_erase, List.map_cons,
      List.mem_cons]
    tauto

theorem processQuoteErrors_mem :
    ∀ (qerrs : AMap String) (stoi : AMap String)
      (failed : List AddPositionResult) (m : AMap AddPositionBatchRequest)
      (kv : String × AddPositionBatchRequest),
      kv ∈ (processQuoteErrors qerrs stoi failed m).2 → kv ∈ m := by
  intro qerrs
  induction qerrs with
  | nil => intro stoi failed m kv h; exact h
  | cons kv2 rest ih =>
    intro stoi failed m kv h
    obtain ⟨k, e⟩ := kv2
    rw [processQuoteErrors] at h
    exact AMap.mem_of_mem_erase _ _ _ (ih _ _ _ _ h)

theorem processQuoteErrors_nodup :
    ∀ (qerrs : AMap String) (stoi : AMap String)
      (failed : List AddPositionResult) (m : AMap AddPositionBatchRequest),
      m.keys.Nodup → (processQuoteErrors qerrs stoi failed m).2.keys.Nodup := by
  intro qerrs
  induction qerrs with
  | nil => intro stoi failed m h; exact h
  | cons kv rest ih =>
    intro stoi failed m h
    obtain ⟨k, e⟩ := kv
    rw [processQuoteErrors]
    exact ih _ _ _ (AMap.keys_nodup_erase _ _ h)

/-! ## Assembly-loop lemma -/

theorem resultISINs_append (X Y : List AddPositionResult) :
    resultISINs (X ++ Y) = resultISINs X ++ resultISINs Y :=
  List.map_append _ _ _

/-- The assembly loop sends each pending ISIN (whose instrument and quote
are both present and non-nil) into exactly one of the two result
slices, preserving the slices it is given. -/
theorem assemble_partition :
    ∀ (pending : List (String × AddPositionBatchRequest))
      (instruments : AMap (Option Instrument))
      (quotes : AMap (Option QuoteResult)) (portfolio : Portfolio)
      (freshID : String → String) (now : Nat) (S F : List AddPositionResult),
      (∀ kv ∈ pending, ∃ inst, instruments.lookup kv.1 = some (some inst) ∧
        ∃ q, quotes.lookup inst.Symbol = some (some q)) →
      (List.map Prod.fst pending).Nodup →
      (∀ kv ∈ pending, kv.1 ∉ resultISINs S ∧ kv.1 ∉ resultISINs F) →
      (∀ isin, ¬(isin ∈ resultISINs S ∧ isin ∈ resultISINs F)) →
      (∀ isin,
        (isin ∈ resultISINs (assemble pending instruments quotes portfolio freshID now S F).1 ∨
         isin ∈ resultISINs (assemble pending instruments quotes portfolio freshID now S F).2.1) ↔
        ((isin ∈ resultISINs S ∨ isin ∈ resultISINs F) ∨
          isin ∈ List.map Prod.fst pending)) ∧
      (∀ isin, ¬(isin ∈ resultISINs (assemble pending instruments quotes portfolio freshID now S F).1 ∧
        isin ∈ resultISINs (assemble pending instruments quotes portfolio freshID now S F).2.1)) := by
  intro pending
  induction pending with
  | nil =>
    intro instruments quotes portfolio freshID now S F _ _ _ hdisj
    refine ⟨fun isin => ?_, fun isin => hdisj isin⟩
    simp [assemble]
  | cons kv rest ih =>
    intro instruments quotes portfolio freshID now S F hgood hnd hfresh hdisj
    obtain ⟨isin, req⟩ := kv
    obtain ⟨inst, hli, q, hlq⟩ := hgood (isin, req) (List.mem_cons_self _ _)
    rw [List.map_cons, List.nodup_cons] at hnd
    have hgood2 : ∀ kv ∈ rest, ∃ inst, instruments.lookup kv.1 = some (some inst) ∧
        ∃ q, quotes.lookup inst.Symbol = some (some q) :=
      fun kv h => hgood kv (List.mem_cons_of_mem _ h)
    have hne : ∀ kv ∈ rest, kv.1 ≠ isin := by
      intro kv h heq
      exact hnd.1 (heq ▸ List.mem_map.mpr ⟨kv, h, rfl⟩)
    have hfresh0 := hfresh (isin, req) (List.mem_cons_self _ _)
    -- the three per-request failure outcomes and the success outcome all
    -- extend exactly one slice by one entry carrying this ISIN
    have hstep : ∀ (S2 F2 : List AddPositionResult) (p2 : Portfolio),
        (resultISINs S2 = resultISINs S ∧
          resultISINs F2 = resultISINs F ++ [isin]) ∨
        (resultISINs S2 = resultISINs S ++ [isin] ∧
          resultISINs F2 = resultISINs F) →
        (∀ isin2,
          (isin2 ∈ resultISINs (assemble rest instruments quotes p2 freshID now S2 F2).1 ∨
           isin2 ∈ resultISINs (assemble rest instruments quotes p2 freshID now S2 F2).2.1) ↔
          ((isin2 ∈ resultISINs S ∨ isin2 ∈ resultISINs F) ∨
            isin2 ∈ List.map Prod.fst ((isin, req) :: rest))) ∧
        (∀ isin2, ¬(isin2 ∈ resultISINs (assemble rest instruments quotes p2 freshID now S2 F2).1 ∧
          isin2 ∈ resultISINs (assemble rest instruments quotes p2 freshID now S2 F2).2.1)) := by
      intro S2 F2 p2 hSF
      have hfresh2 : ∀ kv ∈ rest, kv.1 ∉ resultISINs S2 ∧ kv.1 ∉ resultISINs F2 := by
        intro kv h
        have h0 := hfresh kv (List.mem_cons_of_mem _ h)
        have hne2 := hne kv h
        rcases hSF with ⟨h1, h2⟩ | ⟨h1, h2⟩ <;> rw [h1, h2] <;>
          simp only [List.mem_append, List.mem_singleton] <;>
          exact ⟨by tauto, by tauto⟩
      have hdisj2 : ∀ isin2, ¬(isin2 ∈ resultISINs S2 ∧ isin2 ∈ resultISINs F2) := by
        intro isin2
        have h0 := hdisj isin2
        rcases hSF with ⟨h1, h2⟩ | ⟨h1, h2⟩ <;> rw [h1, h2] <;>
          simp only [List.mem_append, List.mem_singleton] <;>
          rintro ⟨ha, hb⟩
        · rcases hb with hb | hb
          · exact h0 ⟨ha, hb⟩
          · exact hfresh0.1 (hb ▸ ha)
        · rcases ha with ha | ha
          · exact h0 ⟨ha, hb⟩
          · exact hfresh0.2 (ha ▸ hb)
      obtain ⟨ihiff, ihdisj⟩ :=
        ih instruments quotes p2 freshID now S2 F2 hgood2 hnd.2 hfresh2 hdisj2
      refine ⟨fun isin2 => ?_, ihdisj⟩
      rw [ihiff isin2, List.map_cons, List.mem_cons]
      rcases hSF with ⟨h1, h2⟩ | ⟨h1, h2⟩ <;> rw [h1, h2] <;>
        simp only [List.mem_append, List.mem_singleton] <;> tauto
    simp only [assemble]
    rw [hli]
    dsimp only
    rw [hlq]
    dsimp only
    split
    · next e heq =>
      exact hstep S (F ++ [⟨isin, none, some ("failed to parse price: " ++ e)⟩])
        portfolio (Or.inl ⟨rfl, by rw [resultISINs_append]; rfl⟩)
    · next price heq =>
      split
      · next e heq2 =>
        rw [updatePrice_total] at heq2
        simp at heq2
      · next pos2 heq2 =>
        split
        · next e heq3 =>
          exact hstep S (F ++ [⟨isin, none, some ("failed to add to portfolio: " ++ e)⟩])
            portfolio (Or.inl ⟨rfl, by rw [resultISINs_append]; rfl⟩)
        · next p2 heq3 =>
          exact hstep (S ++ [⟨isin, some pos2, none⟩]) F p2
            (Or.inr ⟨by rw [resultISINs_append]; rfl, rfl⟩)

/-! ## Pre-commit partition -/

/-- Under well-behaved stage outcomes — every input ISIN classified by the
search stage, non-nil stored instruments with injective symbols, and a
total, non-nil quote stage — the pre-commit pipeline partitions the
input ISINs between the two result slices. -/
theorem pre_partition (portfolio : Portfolio) (provider : ProviderModel)
    (requests : List AddPositionBatchRequest) (freshID : String → String)
    (now : Nat)
    (instruments : AMap (Option Instrument)) (errs : AMap String)
    (hsearch : searchStage provider (requests.map AddPositionBatchRequest.ISIN)
      = (instruments, errs))
    (hcov : ∀ isin, (isin ∈ instruments.keys ∨ isin ∈ errs.keys) ↔
      isin ∈ requests.map AddPositionBatchRequest.ISIN)
    (hdisjIE : ∀ isin, ¬(isin ∈ instruments.keys ∧ isin ∈ errs.keys))
    (hnodupI : instruments.keys.Nodup)
    (hsome : ∀ kv ∈ instruments, (kv.2).isSome = true)
    (hsyminj : ∀ kv1 ∈ instruments, ∀ kv2 ∈ instruments,
      ∀ i1 i2 : Instrument, kv1.2 = some i1 → kv2.2 = some i2 →
        i1.Symbol = i2.Symbol → kv1.1 = kv2.1)
    (hqcov : ∀ syms s, (s ∈ (quoteStage provider syms).1.keys ∨
      s ∈ (quoteStage provider syms).2.keys) ↔ s ∈ syms)
    (hqsome : ∀ syms, ∀ kv ∈ (quoteStage provider syms).1,
      (kv.2).isSome = true) :
    ∃ pre p2,
      AddPositionsBatchPre portfolio provider requests freshID now
        = some (pre, p2) ∧
      (∀ isin, isin ∈ requests.map AddPositionBatchRequest.ISIN ↔
        (isin ∈ resultISINs pre.Successful ∨ isin ∈ resultISINs pre.Failed)) ∧
      (∀ isin, ¬(isin ∈ resultISINs pre.Successful ∧
        isin ∈ resultISINs pre.Failed)) := by
  by_cases hreq : requests = []
  · subst hreq
    refine ⟨⟨[], []⟩, portfolio, by rw [AddPositionsBatchPre]; rfl, ?_, ?_⟩
    · intro isin; simp [resultISINs]
    · intro isin; simp [resultISINs]
  · -- names for the stage outputs
    set isins := requests.map AddPositionBatchRequest.ISIN with hisins
    set rmap := buildRequestMap requests with hrmap
    obtain ⟨hRA1, hRA2⟩ := buildRequestMap_go requests []
    have hRA1 : ∀ isin, isin ∈ rmap.keys ↔ isin ∈ isins := by
      intro isin
      rw [hrmap, buildRequestMap, hRA1 isin, hisins]
      simp only [AMap.keys, List.map_nil, List.not_mem_nil, false_or]
    have hRA2 : rmap.keys.Nodup := hRA2 (by simp [AMap.keys])
    set PS := processSearchErrors errs [] rmap with hPS
    set failed1 := PS.1 with hfailed1
    set rmap1 := PS.2 with hrmap1
    have hF1 : resultISINs failed1 = errs.keys := by
      rw [hfailed1, hPS, processSearchErrors_failed]
      simp [resultISINs, AMap.keys, List.map_map, Function.comp]
    have hk1 : ∀ isin, isin ∈ rmap1.keys ↔ isin ∈ rmap.keys ∧ isin ∉ errs.keys := by
      intro isin
      rw [hrmap1, hPS]
      exact processSearchErrors_keys errs [] rmap isin
    have hmem1 : ∀ kv ∈ rmap1, kv ∈ rmap := by
      intro kv h
      exact processSearchErrors_mem errs [] rmap kv (by rwa [hrmap1, hPS] at h)
    have hnd1 : rmap1.keys.Nodup := by
      rw [hrmap1, hPS]
      exact processSearchErrors_nodup errs [] rmap hRA2
    obtain ⟨syms, stoi, hsyms⟩ := collectSymbolsGo_total instruments [] [] hsome
    have hS4 : ∀ s, s ∈ syms ↔
        ∃ isin inst, (isin, some inst) ∈ instruments ∧ inst.Symbol = s := by
      intro s
      rw [collectSymbolsGo_syms instruments [] [] syms stoi hsyms s]
      simp
    have hfwd : ∀ isin inst, (isin, some inst) ∈ instruments →
        stoi.lookup inst.Symbol = some isin := by
      intro isin inst hmem
      exact collectSymbolsGo_lookup instruments [] [] syms stoi hsyms isin inst hmem
        (fun kv2 h2 i2 hi2 hsym =>
          hsyminj kv2 h2 (isin, some inst) hmem i2 inst hi2 rfl hsym)
        hnodupI
    set quotes := (quoteStage provider syms).1 with hquotes
    set qerrs := (quoteStage provider syms).2 with hqerrs
    set mapped := List.map (fun kv => ((stoi.lookup kv.1).getD "")) qerrs with hmapped
    set PQ := processQuoteErrors qerrs stoi failed1 rmap1 with hPQ
    set failed2 := PQ.1 with hfailed2
    set rmap2 := PQ.2 with hrmap2
    have hF2 : resultISINs failed2 = resultISINs failed1 ++ mapped := by
      rw [hfailed2, hPQ, processQuoteErrors_failed]
      simp [resultISINs, hmapped, List.map_map, Function.comp]
    have hk2 : ∀ isin, isin ∈ rmap2.keys ↔ isin ∈ rmap1.keys ∧ isin ∉ mapped := by
      intro isin
      rw [hrmap2, hPQ, hmapped]
      exact processQuoteErrors_keys qerrs stoi failed1 rmap1 isin
    have hmem2 : ∀ kv ∈ rmap2, kv ∈ rmap1 := by
      intro kv h
      exact processQuoteErrors_mem qerrs stoi failed1 rmap1 kv
        (by rwa [hrmap2, hPQ] at h)
    have hnd2 : rmap2.keys.Nodup := by
      rw [hrmap2, hPQ]
      exact processQuoteErrors_nodup qerrs stoi failed1 rmap1 hnd1
    -- every element of `mapped` is a stored instrument key
    have hmappedIn : ∀ x ∈ mapped, x ∈ instruments.keys := by
      intro x hx
      rw [hmapped] at hx
      obtain ⟨kv, hkv, hval⟩ := List.mem_map.mp hx
      have hsymsmem : kv.1 ∈ syms := by
        refine (hqcov syms kv.1).mp (Or.inr ?_)
        exact List.mem_map.mpr ⟨kv, hkv, rfl⟩
      obtain ⟨isin0, inst0, hb, hsymb⟩ := (hS4 kv.1).mp hsymsmem
      have : stoi.lookup kv.1 = some isin0 := by
        rw [← hsymb]
        exact hfwd isin0 inst0 hb
      rw [← hval, this]
      simp only [Option.getD_some, AMap.keys]
      exact List.mem_map.mpr ⟨(isin0, some inst0), hb, rfl⟩
    -- surviving requests have both lookups present and non-nil
    have hgood : ∀ kv ∈ rmap2, ∃ inst,
        instruments.lookup kv.1 = some (some inst) ∧
        ∃ q, quotes.lookup inst.Symbol = some (some q) := by
      intro kv h
      have hkeys2 : kv.1 ∈ rmap2.keys := List.mem_map.mpr ⟨kv, h, rfl⟩
      obtain ⟨hkeys1, hnm⟩ := (hk2 kv.1).mp hkeys2
      obtain ⟨hkeys0, hne0⟩ := (hk1 kv.1).mp hkeys1
      have hinI : kv.1 ∈ instruments.keys := by
        rcases (hcov kv.1).mpr ((hRA1 kv.1).mp hkeys0) with h1 | h1
        · exact h1
        · exact absurd h1 hne0
      obtain ⟨oi, hoi⟩ := Option.isSome_iff_exists.mp
        (AMap.lookup_isSome_of_mem_keys instruments kv.1 hinI)
      have hbind := AMap.lookup_mem instruments kv.1 oi hoi
      obtain ⟨inst, hinst⟩ := Option.isSome_iff_exists.mp (hsome (kv.1, oi) hbind)
      subst hinst
      refine ⟨inst, hoi, ?_⟩
      have hsymmem : inst.Symbol ∈ syms :=
        (hS4 inst.Symbol).mpr ⟨kv.1, inst, hbind, rfl⟩
      have hnotqerr : inst.Symbol ∉ qerrs.keys := by
        intro hq
        obtain ⟨kv2, hkv2, hval2⟩ := List.mem_map.mp hq
        refine hnm ?_
        rw [hmapped]
        refine List.mem_map.mpr ⟨kv2, hkv2, ?_⟩
        rw [hval2, hfwd kv.1 inst hbind]
        rfl
      have hinq : inst.Symbol ∈ quotes.keys := by
        rcases (hqcov syms inst.Symbol).mpr hsymmem with h1 | h1
        · exact h1
        · exact absurd h1 hnotqerr
      obtain ⟨oq, hoq⟩ := Option.isSome_iff_exists.mp
        (AMap.lookup_isSome_of_mem_keys quotes inst.Symbol hinq)
      obtain ⟨q, hq⟩ := Option.isSome_iff_exists.mp
        (hqsome syms (inst.Symbol, oq) (AMap.lookup_mem _ _ _ hoq))
      subst hq
      exact ⟨q, hoq⟩
    obtain ⟨hiff3, hdisj3⟩ := assemble_partition rmap2 instruments quotes
      portfolio freshID now [] failed2 hgood hnd2
      (by
        intro kv h
        have hkeys2 : kv.1 ∈ rmap2.keys := List.mem_map.mpr ⟨kv, h, rfl⟩
        obtain ⟨hkeys1, hnm⟩ := (hk2 kv.1).mp hkeys2
        obtain ⟨_, hne0⟩ := (hk1 kv.1).mp hkeys1
        constructor
        · simp [resultISINs]
        · rw [hF2, hF1]
          simp only [List.mem_append]
          rintro (hh | hh)
          · exact hne0 hh
          · exact hnm hh)
      (by intro isin; simp [resultISINs])
    -- the pipeline value
    have hPre : AddPositionsBatchPre portfolio provider requests freshID now
        = some (⟨(assemble rmap2 instruments quotes portfolio freshID now [] failed2).1,
                 (assemble rmap2 instruments quotes portfolio freshID now [] failed2).2.1⟩,
                (assemble rmap2 instruments quotes portfolio freshID now [] failed2).2.2) := by
      rw [AddPositionsBatchPre, if_neg hreq]
      dsimp only
      rw [show searchStage provider (List.map (fun r => r.ISIN) requests)
        = (instruments, errs) from hsearch]
      dsimp only
      rw [show processSearchErrors errs [] (buildRequestMap requests)
        = (failed1, rmap1) from rfl]
      dsimp only
      rw [show collectSymbols instruments = some (syms, stoi) from hsyms]
    refine ⟨_, _, hPre, ?_, hdisj3⟩
    intro isin
    rw [show resultISINs (⟨(assemble rmap2 instruments quotes portfolio freshID now [] failed2).1,
        (assemble rmap2 instruments quotes portfolio freshID now [] failed2).2.1⟩ : AddPositionsBatchResult).Successful
      = resultISINs (assemble rmap2 instruments quotes portfolio freshID now [] failed2).1 from rfl]
    rw [show resultISINs (⟨(assemble rmap2 instruments quotes portfolio freshID now [] failed2).1,
        (assemble rmap2 instruments quotes portfolio freshID now [] failed2).2.1⟩ : AddPositionsBatchResult).Failed
      = resultISINs (assemble rmap2 instruments quotes portfolio freshID now [] failed2).2.1 from rfl]
    rw [hiff3 isin]
    have hmain : (isin ∈ isins) ↔
        ((isin ∈ resultISINs ([] : List AddPositionResult) ∨
          isin ∈ resultISINs failed2) ∨ isin ∈ rmap2.keys) := by
      rw [hF2, hF1]
      simp only [resultISINs, List.map_nil, List.not_mem_nil, false_or,
        List.mem_append]
      constructor
      · intro hin
        rcases (hcov isin).mpr hin with h1 | h1
        · by_cases hm : isin ∈ mapped
          · exact Or.inl (Or.inr hm)
          · refine Or.inr ((hk2 isin).mpr ⟨(hk1 isin).mpr ⟨(hRA1 isin).mpr hin, ?_⟩, hm⟩)
            intro hinE
            exact hdisjIE isin ⟨h1, hinE⟩
        · exact Or.inl (Or.inl h1)
      · rintro ((h1 | h1) | h1)
        · exact (hcov isin).mp (Or.inr h1)
        · exact (hcov isin).mp (Or.inl (hmappedIn isin h1))
        · exact (hRA1 isin).mp ((hk1 isin).mp ((hk2 isin).mp h1).1).1
    exact hmain

/-! ## Commit-stage partition preservation -/

theorem commit_partition (pre : AddPositionsBatchResult) (saveErr : Option String) :
    (∀ isin, (isin ∈ resultISINs (commitStage pre saveErr).1.Successful ∨
      isin ∈ resultISINs (commitStage pre saveErr).1.Failed) ↔
      (isin ∈ resultISINs pre.Successful ∨ isin ∈ resultISINs pre.Failed)) ∧
    ((∀ isin, ¬(isin ∈ resultISINs pre.Successful ∧
        isin ∈ resultISINs pre.Failed)) →
      ∀ isin, ¬(isin ∈ resultISINs (commitStage pre saveErr).1.Successful ∧
        isin ∈ resultISINs (commitStage pre saveErr).1.Failed)) := by
  unfold commitStage
  by_cases hlen : pre.Successful.length > 0
  · cases saveErr with
    | some e =>
      simp only [hlen, if_true]
      constructor
      · intro isin
        simp only [resultISINs, List.map_nil, List.not_mem_nil, false_or,
          List.map_append, List.map_map, List.mem_append, Function.comp]
        tauto
      · intro _ isin
        simp [resultISINs]
    | none => simp [hlen]
  · rw [if_neg hlen]
    exact ⟨fun isin => Iff.rfl, fun h => h⟩

/-! ## Stage facts from the provider contracts -/

/-- Details of the search stage of a batch-capable provider honouring its
contract. -/
theorem batch_search_facts (searchB : List String → List BatchSearchResult)
    (quoteB : List String → List BatchQuoteResult)
    (hs : SearchBatchContract searchB) (hd : DistinctSymbolsBatch searchB)
    (isins : List String) :
    (∀ k, (k ∈ (searchStage (.batch searchB quoteB) isins).1.keys ∨
      k ∈ (searchStage (.batch searchB quoteB) isins).2.keys) ↔ k ∈ isins) ∧
    (∀ k, ¬(k ∈ (searchStage (.batch searchB quoteB) isins).1.keys ∧
      k ∈ (searchStage (.batch searchB quoteB) isins).2.keys)) ∧
    (searchStage (.batch searchB quoteB) isins).1.keys.Nodup ∧
    (∀ kv ∈ (searchStage (.batch searchB quoteB) isins).1,
      (kv.2).isSome = true) ∧
    (∀ kv1 ∈ (searchStage (.batch searchB quoteB) isins).1,
      ∀ kv2 ∈ (searchStage (.batch searchB quoteB) isins).1,
      ∀ i1 i2 : Instrument, kv1.2 = some i1 → kv2.2 = some i2 →
        i1.Symbol = i2.Symbol → kv1.1 = kv2.1) := by
  obtain ⟨hnd, hmem, hsome⟩ := hs isins
  have hst : searchStage (.batch searchB quoteB) isins
      = (searchB isins).foldl collectSearchStep ([], []) := rfl
  obtain ⟨g1, g2, g3, g4, g5⟩ := classify_go BatchSearchResult.ISIN
    BatchSearchResult.Error BatchSearchResult.Instrument (searchB isins) ([], [])
  have hinj : ∀ r1 ∈ searchB isins, ∀ r2 ∈ searchB isins,
      r1.ISIN = r2.ISIN → r1 = r2 := by
    intro r1 h1 r2 h2 heq
    exact List.inj_on_of_nodup_map hnd h1 h2 heq
  rw [hst]
  refine ⟨?_, ?_, g3 (by simp [AMap.keys]), ?_, ?_⟩
  · intro k
    constructor
    · rintro (h | h)
      · rcases (g1 k).mp h with h2 | ⟨r, hr, hk, _⟩
        · simp [AMap.keys] at h2
        · exact (hmem k).mp (hk ▸ List.mem_map.mpr ⟨r, hr, rfl⟩)
      · rcases (g2 k).mp h with h2 | ⟨r, hr, hk, _⟩
        · simp [AMap.keys] at h2
        · exact (hmem k).mp (hk ▸ List.mem_map.mpr ⟨r, hr, rfl⟩)
    · intro h
      obtain ⟨r, hr, hk⟩ := List.mem_map.mp ((hmem k).mpr h)
      cases herr : r.Error with
      | none => exact Or.inl ((g1 k).mpr (Or.inr ⟨r, hr, hk, herr⟩))
      | some e => exact Or.inr ((g2 k).mpr (Or.inr ⟨r, hr, hk, by simp [herr]⟩))
  · rintro k ⟨h1, h2⟩
    rcases (g1 k).mp h1 with h3 | ⟨r1, hr1, hk1, he1⟩
    · simp [AMap.keys] at h3
    rcases (g2 k).mp h2 with h3 | ⟨r2, hr2, hk2, he2⟩
    · simp [AMap.keys] at h3
    have := hinj r1 hr1 r2 hr2 (by rw [hk1, hk2])
    rw [this] at he1
    exact he2 he1
  · intro kv hkv
    rcases g5 kv hkv with h | ⟨r, hr, _, herr, hpay⟩
    · simp at h
    · rw [← hpay]
      exact hsome r hr herr
  · intro kv1 h1 kv2 h2 i1 i2 hi1 hi2 hsym
    rcases g5 kv1 h1 with h | ⟨r1, hr1, hk1, _, hp1⟩
    · simp at h
    rcases g5 kv2 h2 with h | ⟨r2, hr2, hk2, _, hp2⟩
    · simp at h
    rw [← hk1, ← hk2]
    exact hd isins r1 hr1 r2 hr2 i1 i2 (by rw [hp1, hi1]) (by rw [hp2, hi2]) hsym

/-- Details of the quote stage of a batch-capable provider honouring its
contract. -/
theorem batch_quote_facts (searchB : List String → List BatchSearchResult)
    (quoteB : List String → List BatchQuoteResult)
    (hq : QuoteBatchContract quoteB) (syms : List String) :
    (∀ s, (s ∈ (quoteStage (.batch searchB quoteB) syms).1.keys ∨
      s ∈ (quoteStage (.batch searchB quoteB) syms).2.keys) ↔ s ∈ syms) ∧
    (∀ kv ∈ (quoteStage (.batch searchB quoteB) syms).1,
      (kv.2).isSome = true) := by
  obtain ⟨hnd, hmem, hsome⟩ := hq syms
  have hst : quoteStage (.batch searchB quoteB) syms
      = (quoteB syms).foldl collectQuotesStep ([], []) := rfl
  obtain ⟨g1, g2, _, _, g5⟩ := classify_go BatchQuoteResult.Symbol
    BatchQuoteResult.Error BatchQuoteResult.Quote (quoteB syms) ([], [])
  rw [hst]
  constructor
  · intro s
    constructor
    · rintro (h | h)
      · rcases (g1 s).mp h with h2 | ⟨r, hr, hk, _⟩
        · simp [AMap.keys] at h2
        · exact (hmem s).mp (hk ▸ List.mem_map.mpr ⟨r, hr, rfl⟩)
      · rcases (g2 s).mp h with h2 | ⟨r, hr, hk, _⟩
        · simp [AMap.keys] at h2
        · exact (hmem s).mp (hk ▸ List.mem_map.mpr ⟨r, hr, rfl⟩)
    · intro h
      obtain ⟨r, hr, hk⟩ := List.mem_map.mp ((hmem s).mpr h)
      cases herr : r.Error with
      | none => exact Or.inl ((g1 s).mpr (Or.inr ⟨r, hr, hk, herr⟩))
      | some e => exact Or.inr ((g2 s).mpr (Or.inr ⟨r, hr, hk, by simp [herr]⟩))
  · intro kv hkv
    rcases g5 kv hkv with h | ⟨r, hr, _, herr, hpay⟩
    · simp at h
    · rw [← hpay]
      exact hsome r hr herr

/-- Details of the search stage of a base-capability provider honouring
its contract. -/
theorem basic_search_facts (search : String → Option Instrument × Option String)
    (quote : String → Option QuoteResult × Option String)
    (hs : BasicSearchContract search) (hd : DistinctSymbolsBasic search)
    (isins : List String) :
    (∀ k, (k ∈ (searchStage (.basic search quote) isins).1.keys ∨
      k ∈ (searchStage (.basic search quote) isins).2.keys) ↔ k ∈ isins) ∧
    (∀ k, ¬(k ∈ (searchStage (.basic search quote) isins).1.keys ∧
      k ∈ (searchStage (.basic search quote) isins).2.keys)) ∧
    (searchStage (.basic search quote) isins).1.keys.Nodup ∧
    (∀ kv ∈ (searchStage (.basic search quote) isins).1,
      (kv.2).isSome = true) ∧
    (∀ kv1 ∈ (searchStage (.basic search quote) isins).1,
      ∀ kv2 ∈ (searchStage (.basic search quote) isins).1,
      ∀ i1 i2 : Instrument, kv1.2 = some i1 → kv2.2 = some i2 →
        i1.Symbol = i2.Symbol → kv1.1 = kv2.1) := by
  have hst : searchStage (.basic search quote) isins
      = isins.foldl (classifyStep (fun isin => isin)
          (fun isin => (search isin).2) (fun isin => (search isin).1)) ([], []) := rfl
  obtain ⟨g1, g2, g3, g4, g5⟩ := classify_go (fun isin => isin)
    (fun isin => (search isin).2) (fun isin => (search isin).1) isins ([], [])
  rw [hst]
  refine ⟨?_, ?_, g3 (by simp [AMap.keys]), ?_, ?_⟩
  · intro k
    constructor
    · rintro (h | h)
      · rcases (g1 k).mp h with h2 | ⟨x, hx, hk, _⟩
        · simp [AMap.keys] at h2
        · exact hk ▸ hx
      · rcases (g2 k).mp h with h2 | ⟨x, hx, hk, _⟩
        · simp [AMap.keys] at h2
        · exact hk ▸ hx
    · intro h
      cases herr : (search k).2 with
      | none => exact Or.inl ((g1 k).mpr (Or.inr ⟨k, h, rfl, herr⟩))
      | some e => exact Or.inr ((g2 k).mpr (Or.inr ⟨k, h, rfl, by simp [herr]⟩))
  · rintro k ⟨h1, h2⟩
    rcases (g1 k).mp h1 with h3 | ⟨x1, _, hk1, he1⟩
    · simp [AMap.keys] at h3
    rcases (g2 k).mp h2 with h3 | ⟨x2, _, hk2, he2⟩
    · simp [AMap.keys] at h3
    rw [hk1] at he1
    rw [hk2] at he2
    exact he2 he1
  · intro kv hkv
    rcases g5 kv hkv with h | ⟨x, hx, hk, herr, hpay⟩
    · simp at h
    · rw [← hpay]
      exact hs x herr
  · intro kv1 h1 kv2 h2 i1 i2 hi1 hi2 hsym
    rcases g5 kv1 h1 with h | ⟨x1, _, hk1, _, hp1⟩
    · simp at h
    rcases g5 kv2 h2 with h | ⟨x2, _, hk2, _, hp2⟩
    · simp at h
    rw [← hk1, ← hk2]
    exact hd x1 x2 i1 i2 (by rw [hp1, hi1]) (by rw [hp2, hi2]) hsym

/-- Details of the quote stage of a base-capability provider honouring its
contract. -/
theorem basic_quote_facts (search : String → Option Instrument × Option String)
    (quote : String → Option QuoteResult × Option String)
    (hq : BasicQuoteContract quote) (syms : List String) :
    (∀ s, (s ∈ (quoteStage (.basic search quote) syms).1.keys ∨
      s ∈ (quoteStage (.basic search quote) syms).2.keys) ↔ s ∈ syms) ∧
    (∀ kv ∈ (quoteStage (.basic search quote) syms).1,
      (kv.2).isSome = true) := by
  have hst : quoteStage (.basic search quote) syms
      = syms.foldl (classifyStep (fun symbol => symbol)
          (fun symbol => (quote symbol).2) (fun symbol => (quote symbol).1)) ([], []) := rfl
  obtain ⟨g1, g2, _, _, g5⟩ := classify_go (fun symbol => symbol)
    (fun symbol => (quote symbol).2) (fun symbol => (quote symbol).1) syms ([], [])
  rw [hst]
  constructor
  · intro s
    constructor
    · rintro (h | h)
      · rcases (g1 s).mp h with h2 | ⟨x, hx, hk, _⟩
        · simp [AMap.keys] at h2
        · exact hk ▸ hx
      · rcases (g2 s).mp h with h2 | ⟨x, hx, hk, _⟩
        · simp [AMap.keys] at h2
        · exact hk ▸ hx
    · intro h
      cases herr : (quote s).2 with
      | none => exact Or.inl ((g1 s).mpr (Or.inr ⟨s, h, rfl, herr⟩))
      | some e => exact Or.inr ((g2 s).mpr (Or.inr ⟨s, h, rfl, by simp [herr]⟩))
  · intro kv hkv
    rcases g5 kv hkv with h | ⟨x, hx, hk, herr, hpay⟩
    · simp at h
    · rw [← hpay]
      exact hq x herr

/-- The partition claim follows from the stage facts (any provider). -/
theorem claim_of_stage_facts (portfolio : Portfolio) (provider : ProviderModel)
    (requests : List AddPositionBatchRequest) (freshID : String → String)
    (now : Nat) (saveErr : Option String)
    (hcov : ∀ isin, (isin ∈ (searchStage provider (requests.map AddPositionBatchRequest.ISIN)).1.keys ∨
      isin ∈ (searchStage provider (requests.map AddPositionBatchRequest.ISIN)).2.keys) ↔
      isin ∈ requests.map AddPositionBatchRequest.ISIN)
    (hdisjIE : ∀ isin, ¬(isin ∈ (searchStage provider (requests.map AddPositionBatchRequest.ISIN)).1.keys ∧
      isin ∈ (searchStage provider (requests.map AddPositionBatchRequest.ISIN)).2.keys))
    (hnodupI : (searchStage provider (requests.map AddPositionBatchRequest.ISIN)).1.keys.Nodup)
    (hsome : ∀ kv ∈ (searchStage provider (requests.map AddPositionBatchRequest.ISIN)).1,
      (kv.2).isSome = true)
    (hsyminj : ∀ kv1 ∈ (searchStage provider (requests.map AddPositionBatchRequest.ISIN)).1,
      ∀ kv2 ∈ (searchStage provider (requests.map AddPositionBatchRequest.ISIN)).1,
      ∀ i1 i2 : Instrument, kv1.2 = some i1 → kv2.2 = some i2 →
        i1.Symbol = i2.Symbol → kv1.1 = kv2.1)
    (hqcov : ∀ syms s, (s ∈ (quoteStage provider syms).1.keys ∨
      s ∈ (quoteStage provider syms).2.keys) ↔ s ∈ syms)
    (hqsome : ∀ syms, ∀ kv ∈ (quoteStage provider syms).1,
      (kv.2).isSome = true) :
    BatchPartitionClaim portfolio provider requests freshID now saveErr := by
  intro res p2 sc hrun
  obtain ⟨pre, p2', hPre, hiff, hdisj⟩ := pre_partition portfolio provider
    requests freshID now
    (searchStage provider (requests.map AddPositionBatchRequest.ISIN)).1
    (searchStage provider (requests.map AddPositionBatchRequest.ISIN)).2
    rfl hcov hdisjIE hnodupI hsome hsyminj hqcov hqsome
  rw [AddPositionsBatch, hPre] at hrun
  dsimp only at hrun
  rw [show commitStage pre saveErr
    = ((commitStage pre saveErr).1, (commitStage pre saveErr).2) from rfl] at hrun
  dsimp only at hrun
  simp only [Option.some.injEq, Prod.mk.injEq] at hrun
  obtain ⟨hres, _, _⟩ := hrun
  subst hres
  obtain ⟨hciff, hcdisj⟩ := commit_partition pre saveErr
  exact ⟨fun isin => (hiff isin).trans (hciff isin).symm, hcdisj hdisj⟩

/-! ## C2 — amended claim -/

/-- C2 amended: the partition holds for every provider honouring its
per-entry contract — one well-formed entry per input key in each batch
call (respectively, never a nil payload with a nil error on the base
capability) — whose found instruments carry pairwise-distinct symbols.
The counterexample shows the distinct-symbols condition (and entry
totality) cannot be dropped. -/
theorem c2_partition_amended (portfolio : Portfolio) (provider : ProviderModel)
    (requests : List AddPositionBatchRequest) (freshID : String → String)
    (now : Nat) (saveErr : Option String)
    (hc : ProviderContract provider) :
    BatchPartitionClaim portfolio provider requests freshID now saveErr := by
  cases provider with
  | batch searchB quoteB =>
    obtain ⟨hs, hq, hd⟩ := hc
    obtain ⟨f1, f2, f3, f4, f5⟩ := batch_search_facts searchB quoteB hs hd
      (requests.map AddPositionBatchRequest.ISIN)
    refine claim_of_stage_facts portfolio _ requests freshID now saveErr
      f1 f2 f3 f4 f5 ?_ ?_
    · intro syms s
      exact (batch_quote_facts searchB quoteB hq syms).1 s
    · intro syms
      exact (batch_quote_facts searchB quoteB hq syms).2
  | basic search quote =>
    obtain ⟨hs, hq, hd⟩ := hc
    obtain ⟨f1, f2, f3, f4, f5⟩ := basic_search_facts search quote hs hd
      (requests.map AddPositionBatchRequest.ISIN)
    refine claim_of_stage_facts portfolio _ requests freshID now saveErr
      f1 f2 f3 f4 f5 ?_ ?_
    · intro syms s
      exact (basic_quote_facts search quote hq syms).1 s
    · intro syms
      exact (basic_quote_facts search quote hq syms).2

/-- The witness provider honours the contract. -/
theorem wcProvider_contract : ProviderContract wcProvider := by
  refine ⟨?_, ?_, ?_⟩
  · intro isins
    refine ⟨?_, ?_, ?_⟩
    · rw [List.map_map]
      exact (List.nodup_dedup isins).map_on (by
        intro x _ y _ h
        simpa using h)
    · intro isin
      rw [List.map_map]
      constructor
      · intro h
        obtain ⟨x, hx, hval⟩ := List.mem_map.mp h
        exact List.mem_dedup.mp (by simpa [← hval] using hx)
      · intro h
        exact List.mem_map.mpr ⟨isin, List.mem_dedup.mpr h, rfl⟩
    · intro r hr _
      obtain ⟨x, _, hval⟩ := List.mem_map.mp hr
      rw [← hval]
      simp
  · intro syms
    refine ⟨?_, ?_, ?_⟩
    · rw [List.map_map]
      exact (List.nodup_dedup syms).map_on (by
        intro x _ y _ h
        simpa using h)
    · intro s
      rw [List.map_map]
      constructor
      · intro h
        obtain ⟨x, hx, hval⟩ := List.mem_map.mp h
        exact List.mem_dedup.mp (by simpa [← hval] using hx)
      · intro h
        exact List.mem_map.mpr ⟨s, List.mem_dedup.mpr h, rfl⟩
    · intro r hr _
      obtain ⟨x, _, hval⟩ := List.mem_map.mp hr
      rw [← hval]
      simp
  · intro isins r1 h1 r2 h2 i1 i2 hi1 hi2 hsym
    obtain ⟨x1, _, hv1⟩ := List.mem_map.mp h1
    obtain ⟨x2, _, hv2⟩ := List.mem_map.mp h2
    rw [← hv1] at hi1 ⊢
    rw [← hv2] at hi2 ⊢
    simp only [Option.some_inj] at hi1 hi2
    have : i1.Symbol = x1 := by rw [← hi1]
    have h2s : i2.Symbol = x2 := by rw [← hi2]
    simp only []
    rw [← this, ← h2s, hsym]

/-- Witness for the amended C2: the honest provider on the original
counterexample requests. -/
theorem c2_partition_amended_witness :
    BatchPartitionClaim cexPortfolio wcProvider cexRequests
      (fun isin => isin ++ "-id") 0 none :=
  c2_partition_amended cexPortfolio wcProvider cexRequests
    (fun isin => isin ++ "-id") 0 none wcProvider_contract

/-! ## Digit-count bounds -/

theorem digitsRevGo_eq (fuel : Nat) :
    ∀ n : Nat, n ≤ fuel → digitsRevGo fuel n = Nat.digits 10 n := by
  induction fuel with
  | zero =>
    intro n hn
    interval_cases n
    simp [digitsRevGo]
  | succ fuel ih =>
    intro n hn
    by_cases h0 : n = 0
    · subst h0; simp [digitsRevGo]
    · rw [digitsRevGo, if_neg h0,
        Nat.digits_def' (by norm_num : 1 < 10) (Nat.pos_of_ne_zero h0)]
      have hlt : n / 10 < n := Nat.div_lt_self (Nat.pos_of_ne_zero h0) (by norm_num)
      rw [ih (n / 10) (by omega)]

theorem digitsRev_eq_digits (n : Nat) : digitsRev n = Nat.digits 10 n :=
  digitsRevGo_eq n n le_rfl

theorem numDigits_eq_len (n : Nat) (h : n ≠ 0) :
    numDigits n = (Nat.digits 10 n).length := by
  rw [numDigits, if_neg h, digitsRev_eq_digits]

theorem numDigits_pos (n : Nat) : 1 ≤ numDigits n := by
  by_cases h : n = 0
  · simp [numDigits, h]
  · rw [numDigits_eq_len n h]
    have hne : Nat.digits 10 n ≠ [] := Nat.digits_ne_nil_iff_ne_zero.mpr h
    exact List.length_pos.mpr hne

theorem numDigits_lt (n : Nat) : n < 10 ^ numDigits n := by
  by_cases h : n = 0
  · simp [numDigits, h]
  · rw [numDigits_eq_len n h]
    exact Nat.lt_base_pow_length_digits (by norm_num)

theorem numDigits_le (n : Nat) (h : n ≠ 0) : 10 ^ (numDigits n - 1) ≤ n := by
  rw [numDigits_eq_len n h]
  have hlen : 1 ≤ (Nat.digits 10 n).length := by
    have := numDigits_pos n
    rwa [numDigits_eq_len n h] at this
  have hb := Nat.base_pow_length_digits_le 10 n (by norm_num) h
  have hsplit : 10 ^ (Nat.digits 10 n).length
      = 10 * 10 ^ ((Nat.digits 10 n).length - 1) := by
    rw [← pow_succ']
    congr 1
    omega
  rw [hsplit] at hb
  exact Nat.le_of_mul_le_mul_left hb (by norm_num)

/-! ## Half-up division bounds -/

theorem halfUpDiv_err (a b : Nat) (hb : 0 < b) :
    2 * (halfUpDiv a b) * b ≤ 2 * a + b ∧
    2 * a ≤ 2 * (halfUpDiv a b) * b + b := by
  constructor
  · have h1 : (2 * a + b) / (2 * b) * (2 * b) ≤ 2 * a + b := Nat.div_mul_le_self _ _
    calc 2 * (halfUpDiv a b) * b = (2 * a + b) / (2 * b) * (2 * b) := by
          rw [halfUpDiv]; ring
      _ ≤ 2 * a + b := h1
  · have hq : 2 * b * ((2 * a + b) / (2 * b)) + (2 * a + b) % (2 * b)
        = 2 * a + b := Nat.div_add_mod _ _
    have hmod : (2 * a + b) % (2 * b) < 2 * b := Nat.mod_lt _ (by omega)
    have heq : 2 * (halfUpDiv a b) * b = 2 * b * ((2 * a + b) / (2 * b)) := by
      rw [halfUpDiv]; ring
    rw [heq]
    linarith

theorem halfUpDiv_ge (a b : Nat) (hb : 0 < b) (h : 10 ^ 19 * b ≤ a) :
    10 ^ 19 ≤ halfUpDiv a b := by
  rw [halfUpDiv]
  rw [Nat.le_div_iff_mul_le (show 0 < 2 * b by omega)]
  calc 10 ^ 19 * (2 * b) = 2 * (10 ^ 19 * b) := by ring
    _ ≤ 2 * a := by omega
    _ ≤ 2 * a + b := by omega

theorem sign_mul_self (z : Int) (hz : z ≠ 0) : z.sign * z = (z.natAbs : Int) := by
  rcases lt_trichotomy z 0 with h | h | h
  · rw [Int.sign_eq_neg_one_of_neg h]
    omega
  · exact absurd h hz
  · rw [Int.sign_eq_one_of_pos h]
    omega

theorem abs_sign_eq_one (z : Int) (hz : z ≠ 0) : |z.sign| = 1 := by
  rcases lt_trichotomy z 0 with h | h | h
  · rw [Int.sign_eq_neg_one_of_neg h]; rfl
  · exact absurd h hz
  · rw [Int.sign_eq_one_of_pos h]; rfl

/-- The working-precision quotient is within one part in `10^19` of the
exact one: multiplying it back by the divisor recovers the dividend up
to `10^(1−20)` relative error. -/
theorem div20_relative_error (d x : Dec) (hd : d.c ≠ 0) (hx : x.c ≠ 0) :
    (10 : ℚ) ^ (19 : ℕ) * |(d.div20 x).val * x.val - d.val| ≤ |d.val| := by
  set d1 := numDigits d.c.natAbs with hd1
  set d2 := numDigits x.c.natAbs with hd2
  set s : Int := (decPrecision : Int) + (d2 : Int) - (d1 : Int) with hs
  set u : Nat := s.toNat with hu
  set v : Nat := (-s).toNat with hv
  set a : Nat := d.c.natAbs * 10 ^ u with ha
  set b : Nat := x.c.natAbs * 10 ^ v with hb
  set q0 : Nat := halfUpDiv a b with hq0
  have hvalr : (d.div20 x).val
      = ((d.c.sign * x.c.sign * (q0 : Int) : Int) : ℚ)
        * (10 : ℚ) ^ (d.e - x.e + (v : Int) - (u : Int)) := rfl
  have hdnat : 0 < d.c.natAbs := Int.natAbs_pos.mpr hd
  have hxnat : 0 < x.c.natAbs := Int.natAbs_pos.mpr hx
  have hbpos : 0 < b := Nat.mul_pos hxnat (pow_pos (by norm_num) v)
  have hdec : (decPrecision : Int) = 20 := rfl
  have hd1pos : 1 ≤ d1 := numDigits_pos _
  have huv : (u : Int) - (v : Int) = s := by omega
  have hnatdig : d1 - 1 + u = d2 + v + 19 := by omega
  -- the scaled dividend dominates the scaled divisor by 10^19
  have hF2 : 10 ^ 19 * b < a := by
    have h1 : (10 : ℕ) ^ (d1 - 1) ≤ d.c.natAbs :=
      numDigits_le _ (by omega)
    have h2 : x.c.natAbs < 10 ^ d2 := numDigits_lt _
    calc 10 ^ 19 * b < 10 ^ 19 * (10 ^ d2 * 10 ^ v) := by
          refine mul_lt_mul_of_pos_left ?_ (pow_pos (by norm_num) 19)
          exact mul_lt_mul_of_pos_right h2 (pow_pos (by norm_num) v)
      _ = 10 ^ (d1 - 1 + u) := by
          rw [← pow_add, ← pow_add, hnatdig]
          congr 1
          omega
      _ = 10 ^ (d1 - 1) * 10 ^ u := pow_add 10 _ _
      _ ≤ d.c.natAbs * 10 ^ u := Nat.mul_le_mul_right _ h1
      _ = a := ha.symm
  obtain ⟨herr1, herr2⟩ := halfUpDiv_err a b hbpos
  -- half-up rounding error of the integer quotient
  have hF3 : 2 * |(q0 : Int) * (b : Int) - (a : Int)| ≤ (b : Int) := by
    have h1 : ((2 * q0 * b : ℕ) : ℤ) ≤ ((2 * a + b : ℕ) : ℤ) :=
      Int.ofNat_le.mpr herr1
    have h2 : ((2 * a : ℕ) : ℤ) ≤ ((2 * q0 * b + b : ℕ) : ℤ) :=
      Int.ofNat_le.mpr herr2
    push_cast at h1 h2
    have habs : |2 * ((q0 : Int) * b - a)| ≤ (b : Int) :=
      abs_le.mpr ⟨by linarith, by linarith⟩
    calc 2 * |(q0 : Int) * (b : Int) - (a : Int)|
        = |2 * ((q0 : Int) * b - a)| := by rw [abs_mul]; norm_num
      _ ≤ (b : Int) := habs
  -- the integer-level relative bound
  have hF5 : (10 : ℤ) ^ 19 * |(q0 : Int) * b - a| ≤ (a : Int) := by
    have h2 : (10 : ℤ) ^ 19 * (2 * |(q0 : Int) * b - a|)
        ≤ (10 : ℤ) ^ 19 * b :=
      mul_le_mul_of_nonneg_left hF3 (by positivity)
    have h3 : (10 : ℤ) ^ 19 * (b : ℤ) ≤ (a : ℤ) := by
      have := le_of_lt hF2
      push_cast at this ⊢
      linarith
    have habs : 0 ≤ |(q0 : Int) * b - a| := abs_nonneg _
    linarith
  -- lift to the rational values: factor out 10^(d.e - u)
  set T : Int := d.c.sign * x.c.sign * (q0 : Int) * x.c * 10 ^ v
      - d.c * 10 ^ u with hT
  have h10 : (10 : ℚ) ≠ 0 := by norm_num
  have hTfact : T = d.c.sign * ((q0 : Int) * b - a) := by
    rw [hT, hb, ha]
    have hsx : x.c.sign * x.c = (x.c.natAbs : Int) := sign_mul_self x.c hx
    have hsd : d.c.sign * d.c = (d.c.natAbs : Int) := sign_mul_self d.c hd
    have hsd2 : d.c.sign * (d.c.natAbs : Int) = d.c := by
      rcases lt_trichotomy d.c 0 with h | h | h
      · rw [Int.sign_eq_neg_one_of_neg h]; omega
      · exact absurd h hd
      · rw [Int.sign_eq_one_of_pos h]; omega
    push_cast
    calc d.c.sign * x.c.sign * (q0 : Int) * x.c * 10 ^ v - d.c * 10 ^ u
        = d.c.sign * ((q0 : Int) * ((x.c.sign * x.c) * 10 ^ v))
          - (d.c.sign * (d.c.natAbs : Int)) * 10 ^ u := by rw [hsd2]; ring
      _ = d.c.sign * ((q0 : Int) * ((x.c.natAbs : Int) * 10 ^ v)
          - (d.c.natAbs : Int) * 10 ^ u) := by rw [hsx]; ring
      _ = d.c.sign * ((q0 : Int) * (|x.c| * 10 ^ v) - |d.c| * 10 ^ u) := by
          rw [Int.abs_eq_natAbs, Int.abs_eq_natAbs]
  have hTabs : |T| = |(q0 : Int) * b - a| := by
    rw [hTfact, abs_mul, abs_sign_eq_one d.c hd, one_mul]
  have hsplit : (d.div20 x).val * x.val - d.val
      = (T : ℚ) * (10 : ℚ) ^ (d.e - (u : ℤ)) := by
    rw [hvalr]
    simp only [Dec.val]
    rw [hT]
    push_cast
    rw [show d.e - x.e + (v : Int) - (u : Int)
      = (v : Int) + (d.e - (u : Int)) + (- x.e) by ring]
    rw [zpow_add₀ h10, zpow_add₀ h10, zpow_neg, zpow_natCast]
    rw [show d.e = (u : Int) + (d.e - (u : Int)) by ring]
    rw [zpow_add₀ h10, zpow_natCast]
    have hBne : (10 : ℚ) ^ x.e ≠ 0 := zpow_ne_zero _ h10
    field_simp
    ring
  have hzpos : (0 : ℚ) < (10 : ℚ) ^ (d.e - (u : ℤ)) := by
    refine zpow_pos ?_ _
    norm_num
  have habsval : |d.val| = (a : ℚ) * (10 : ℚ) ^ (d.e - (u : ℤ)) := by
    rw [Dec.val, abs_mul]
    have h1 : |(10 : ℚ) ^ d.e| = (10 : ℚ) ^ d.e :=
      abs_of_pos (by refine zpow_pos ?_ _; norm_num)
    have h2 : |((d.c : ℤ) : ℚ)| = ((d.c.natAbs : ℕ) : ℚ) := by
      push_cast [Int.cast_natAbs]
      ring
    rw [h1, h2, ha]
    push_cast
    rw [show d.e = (u : Int) + (d.e - (u : Int)) by ring]
    rw [zpow_add₀ h10, zpow_natCast]
    ring
  rw [hsplit, habsval, abs_mul, abs_of_pos hzpos, ← mul_assoc]
  refine mul_le_mul_of_nonneg_right ?_ (le_of_lt hzpos)
  have hcast : ((10 : ℤ) ^ 19 * |T| : ℤ) ≤ ((a : ℤ)) := by
    rw [hTabs]
    exact hF5
  calc (10 : ℚ) ^ (19 : ℕ) * |(T : ℚ)|
      = (((10 : ℤ) ^ 19 * |T| : ℤ) : ℚ) := by
        push_cast [Int.cast_abs]
        ring
    _ ≤ ((a : ℤ) : ℚ) := by exact_mod_cast hcast
    _ = (a : ℚ) := by push_cast; ring

/-! ## C6 -/

/-- C6: after `UpdatePrice(price)` returns without error, whenever the
stored `CurrentPrice` and `InvestedAmount` are non-zero, the recomputed
quantity satisfies `Quantity · CurrentPrice = InvestedAmount` up to the
20-significant-digit working precision: the relative error is at most
`10^(1−20)`. -/
theorem c6_quantity_consistency (p : Position) (price : Dec) (now : Nat)
    (q : Position) (h : p.UpdatePrice price now = .ok q)
    (hp : q.CurrentPrice.IsZero = false)
    (hi : q.InvestedAmount.IsZero = false) :
    (10 : ℚ) ^ (19 : ℕ) *
      |q.Quantity.val * q.CurrentPrice.val - q.InvestedAmount.val|
      ≤ |q.InvestedAmount.val| := by
  rw [updatePrice_total] at h
  rw [Except.ok.injEq] at h
  subst h
  simp only at hp hi
  have hpz : price.IsZero = false := hp
  have hiz : p.InvestedAmount.IsZero = false := hi
  have hguard : (!price.IsZero && !p.InvestedAmount.IsZero) = true := by
    rw [hpz, hiz]
    rfl
  simp only [hguard, if_true]
  have hd : p.InvestedAmount.c ≠ 0 := by
    simpa [Dec.IsZero] using hiz
  have hx : price.c ≠ 0 := by
    simpa [Dec.IsZero] using hpz
  exact div20_relative_error p.InvestedAmount price hd hx

/-- Witness for C6: invested 7 at price 3; the recomputed quantity is
`2.33333333333333333333` and the product is within `10^(−19)` of 7. -/
theorem c6_quantity_consistency_witness :
    (10 : ℚ) ^ (19 : ℕ) *
      |({ wExisting with
          CurrentPrice := ⟨3, 0⟩
          LastUpdated := 5
          Quantity := ⟨233333333333333333333, -20⟩ } : Position).Quantity.val *
        ({ wExisting with
          CurrentPrice := ⟨3, 0⟩
          LastUpdated := 5
          Quantity := ⟨233333333333333333333, -20⟩ } : Position).CurrentPrice.val -
        ({ wExisting with
          CurrentPrice := ⟨3, 0⟩
          LastUpdated := 5
          Quantity := ⟨233333333333333333333, -20⟩ } : Position).InvestedAmount.val|
      ≤ |({ wExisting with
          CurrentPrice := ⟨3, 0⟩
          LastUpdated := 5
          Quantity := ⟨233333333333333333333, -20⟩ } : Position).InvestedAmount.val| :=
  c6_quantity_consistency wExisting ⟨3, 0⟩ 5 _ (by rfl) (by decide) (by decide)

/-! ## Codec helper lemmas -/

theorem digitChar_isDigit (d : Nat) (h : d < 10) :
    (digitChar d).isDigit = true := by
  interval_cases d <;> decide

theorem digitChar_ne_special (d : Nat) (h : d < 10) :
    digitChar d ≠ 'E' ∧ digitChar d ≠ 'e' ∧ digitChar d ≠ '.' ∧
    digitChar d ≠ '-' ∧ digitChar d ≠ '+' := by
  interval_cases d <;> exact ⟨by decide, by decide, by decide, by decide, by decide⟩

theorem digitVal_digitChar (d : Nat) (h : d < 10) :
    digitVal (digitChar d) = d := by
  interval_cases d <;> decide

theorem digitsRev_lt (n : Nat) : ∀ d ∈ digitsRev n, d < 10 := by
  rw [digitsRev_eq_digits]
  intro d hd
  exact Nat.digits_lt_base (by norm_num) hd

/-- Uniform description of the digit characters of a natural number. -/
theorem natDigitChars_shape (n : Nat) :
    ∃ L : List Nat, natDigitChars n = L.map digitChar ∧
      (∀ d ∈ L, d < 10) ∧ Nat.ofDigits 10 L.reverse = n ∧ L ≠ [] := by
  by_cases h : n = 0
  · subst h
    exact ⟨[0], rfl, by simp, by simp [Nat.ofDigits], by simp⟩
  · refine ⟨(digitsRev n).reverse, ?_, ?_, ?_, ?_⟩
    · rw [natDigitChars, if_neg h]
    · intro d hd
      exact digitsRev_lt n d (List.mem_reverse.mp hd)
    · rw [List.reverse_reverse, digitsRev_eq_digits]
      exact Nat.ofDigits_digits 10 n
    · simp only [ne_eq, List.reverse_eq_nil_iff]
      rw [digitsRev_eq_digits]
      exact Nat.digits_ne_nil_iff_ne_zero.mpr h

theorem foldl_digits (l : List Nat) (hl : ∀ d ∈ l, d < 10) :
    ∀ acc : Nat, (l.map digitChar).foldl (fun a ch => a * 10 + digitVal ch) acc
      = acc * 10 ^ l.length + Nat.ofDigits 10 l.reverse := by
  induction l with
  | nil => intro acc; simp
  | cons d t ih =>
    intro acc
    rw [List.map_cons, List.foldl_cons,
      digitVal_digitChar d (hl d (List.mem_cons_self _ _)),
      ih (fun d2 h2 => hl d2 (List.mem_cons_of_mem _ h2))]
    rw [List.reverse_cons, Nat.ofDigits_append]
    simp [Nat.ofDigits]
    ring

theorem parseDigits_map (L : List Nat) (hL : ∀ d ∈ L, d < 10) (hne : L ≠ []) :
    parseDigits (L.map digitChar) = some (Nat.ofDigits 10 L.reverse) := by
  rw [parseDigits, if_pos]
  · rw [foldl_digits L hL 0]
    simp
  · constructor
    · simpa using hne
    · rw [List.all_eq_true]
      intro ch hch
      obtain ⟨d, hd, hdc⟩ := List.mem_map.mp hch
      rw [← hdc]
      exact digitChar_isDigit d (hL d hd)

theorem ofDigits_replicate_zero (m : Nat) :
    Nat.ofDigits 10 (List.replicate m 0) = 0 := by
  induction m with
  | zero => rfl
  | succ m ih => rw [List.replicate_succ, Nat.ofDigits_cons, ih]

theorem splitOnExp_no (l : List Char)
    (h : ∀ ch ∈ l, ch ≠ 'E' ∧ ch ≠ 'e') : splitOnExp l = (l, none) := by
  induction l with
  | nil => rfl
  | cons ch rest ih =>
    obtain ⟨h1, h2⟩ := h ch (List.mem_cons_self _ _)
    rw [splitOnExp, if_neg (by simp [h1, h2]),
      ih (fun c hc => h c (List.mem_cons_of_mem _ hc))]

theorem splitOnExp_append (l1 l2 : List Char)
    (h : ∀ ch ∈ l1, ch ≠ 'E' ∧ ch ≠ 'e') :
    splitOnExp (l1 ++ 'E' :: l2) = (l1, some l2) := by
  induction l1 with
  | nil => rw [List.nil_append, splitOnExp, if_pos (by decide)]
  | cons ch rest ih =>
    obtain ⟨h1, h2⟩ := h ch (List.mem_cons_self _ _)
    rw [List.cons_append, splitOnExp, if_neg (by simp [h1, h2]),
      ih (fun c hc => h c (List.mem_cons_of_mem _ hc))]

theorem splitOnDot_no (l : List Char)
    (h : ∀ ch ∈ l, ch ≠ '.') : splitOnDot l = (l, none) := by
  induction l with
  | nil => rfl
  | cons ch rest ih =>
    have h1 := h ch (List.mem_cons_self _ _)
    rw [splitOnDot, if_neg (by simp [h1]),
      ih (fun c hc => h c (List.mem_cons_of_mem _ hc))]

theorem splitOnDot_append (l1 l2 : List Char)
    (h : ∀ ch ∈ l1, ch ≠ '.') :
    splitOnDot (l1 ++ '.' :: l2) = (l1, some l2) := by
  induction l1 with
  | nil => rw [List.nil_append, splitOnDot, if_pos (by decide)]
  | cons ch rest ih =>
    have h1 := h ch (List.mem_cons_self _ _)
    rw [List.cons_append, splitOnDot, if_neg (by simp [h1]),
      ih (fun c hc => h c (List.mem_cons_of_mem _ hc))]

theorem parseSign_cons (ch : Char) (rest : List Char)
    (h1 : ch ≠ '-') (h2 : ch ≠ '+') :
    parseSign (ch :: rest) = (false, ch :: rest) := by
  unfold parseSign
  split
  · next heq => injection heq with ha _; exact absurd ha h1
  · next heq => injection heq with ha _; exact absurd ha h2
  · rfl

/-- Evaluation of the parser from the values of its stages. -/
theorem parseChars_eval (neg : Bool) (l l1 mant ip : List Char)
    (expOpt fpOpt : Option (List Char)) (v : Nat) (e0 c e : Int)
    (hps : parseSign l = (neg, l1))
    (hse : splitOnExp l1 = (mant, expOpt))
    (hsd : splitOnDot mant = (ip, fpOpt))
    (hpd : parseDigits (ip ++ fpOpt.getD []) = some v)
    (he : expOpt = none ∧ e0 = 0 ∨
      ∃ ex eneg ed ev, expOpt = some ex ∧ parseSign ex = (eneg, ed) ∧
        parseDigits ed = some ev ∧ e0 = if eneg then -(ev : Int) else (ev : Int))
    (hc : (if neg then -(v : Int) else (v : Int)) = c)
    (hee : e0 - ((fpOpt.getD []).length : Int) = e) :
    parseChars l = some ⟨c, e⟩ := by
  unfold parseChars
  rw [hps]
  dsimp only
  rw [hse]
  dsimp only
  rw [hsd]
  dsimp only
  rw [hpd]
  rcases he with ⟨hnone, he0⟩ | ⟨ex, eneg, ed, ev, hex, hpse, hped, he0⟩
  · subst hnone
    dsimp only
    rw [← hc, ← hee, he0]
    simp
  · subst hex
    dsimp only
    rw [hpse]
    dsimp only
    rw [hped]
    dsimp only
    rw [← hc, ← hee, he0]

/-- Evaluation of the parser on a sign prefix followed by a body whose
first character is not a sign. -/
theorem parseChars_signed (P : Prop) [Decidable P] {body : List Char}
    {bh : Char} {bt : List Char}
    (hb : body = bh :: bt) (h1 : bh ≠ '-') (h2 : bh ≠ '+')
    {mant ip : List Char} {expOpt fpOpt : Option (List Char)} {v : Nat}
    {e0 : Int} {c e : Int}
    (hse : splitOnExp body = (mant, expOpt))
    (hsd : splitOnDot mant = (ip, fpOpt))
    (hpd : parseDigits (ip ++ fpOpt.getD []) = some v)
    (he : expOpt = none ∧ e0 = 0 ∨
      ∃ ex eneg ed ev, expOpt = some ex ∧ parseSign ex = (eneg, ed) ∧
        parseDigits ed = some ev ∧ e0 = if eneg then -(ev : Int) else (ev : Int))
    (hc : (if P then -(v : Int) else (v : Int)) = c)
    (hee : e0 - ((fpOpt.getD []).length : Int) = e) :
    parseChars ((if P then ['-'] else []) ++ body) = some ⟨c, e⟩ := by
  by_cases hP : P
  · rw [if_pos hP, List.singleton_append]
    refine parseChars_eval true _ body mant ip expOpt fpOpt v e0 c e ?_ hse hsd hpd he ?_ hee
    · rfl
    · rw [if_pos hP] at hc
      simpa using hc
  · rw [if_neg hP, List.nil_append]
    refine parseChars_eval false body body mant ip expOpt fpOpt v e0 c e ?_ hse hsd hpd he ?_ hee
    · rw [hb]
      exact parseSign_cons bh bt h1 h2
    · rw [if_neg hP] at hc
      simpa using hc

/-- Every finite decimal round-trips exactly through its canonical GDA
string serialisation. -/
theorem parseChars_formatChars (d : Dec) :
    parseChars (formatChars d) = some d := by
  obtain ⟨L, hD, hLlt, hLval, hLne⟩ := natDigitChars_shape d.c.natAbs
  have hDspec : ∀ ch ∈ natDigitChars d.c.natAbs,
      ch ≠ 'E' ∧ ch ≠ 'e' ∧ ch ≠ '.' ∧ ch ≠ '-' ∧ ch ≠ '+' := by
    rw [hD]
    intro ch hch
    obtain ⟨dd, hdd, hddc⟩ := List.mem_map.mp hch
    rw [← hddc]
    exact digitChar_ne_special dd (hLlt dd hdd)
  have hpdD : parseDigits (natDigitChars d.c.natAbs) = some d.c.natAbs := by
    rw [hD, parseDigits_map L hLlt hLne, hLval]
  have hDne : natDigitChars d.c.natAbs ≠ [] := by
    rw [hD]
    simpa using hLne
  obtain ⟨c0, crest, hDcons⟩ :
      ∃ c0 crest, natDigitChars d.c.natAbs = c0 :: crest := by
    cases hDD : natDigitChars d.c.natAbs with
    | nil => exact absurd hDD hDne
    | cons a b => exact ⟨a, b, rfl⟩
  have hc0 : c0 ≠ 'E' ∧ c0 ≠ 'e' ∧ c0 ≠ '.' ∧ c0 ≠ '-' ∧ c0 ≠ '+' := by
    apply hDspec
    rw [hDcons]
    exact List.mem_cons_self _ _
  have hsignc : (if d.c < 0 then -(d.c.natAbs : Int) else (d.c.natAbs : Int)) = d.c := by
    by_cases h : d.c < 0
    · rw [if_pos h]; omega
    · rw [if_neg h]; omega
  unfold formatChars
  dsimp only
  by_cases hmain : d.e ≤ 0 ∧
      -6 ≤ d.e + ((natDigitChars d.c.natAbs).length : Int) - 1
  · rw [if_pos hmain]
    by_cases he0 : d.e = 0
    · rw [if_pos he0]
      have hse1 : splitOnExp (natDigitChars d.c.natAbs)
          = (natDigitChars d.c.natAbs, none) :=
        splitOnExp_no _
          (fun ch hch => ⟨(hDspec ch hch).1, (hDspec ch hch).2.1⟩)
      have hsd1 : splitOnDot (natDigitChars d.c.natAbs)
          = (natDigitChars d.c.natAbs, none) :=
        splitOnDot_no _ (fun ch hch => (hDspec ch hch).2.2.1)
      have hpd1 : parseDigits (natDigitChars d.c.natAbs ++
          (none : Option (List Char)).getD []) = some d.c.natAbs := by
        simpa using hpdD
      have hee1 : (0 : Int) -
          ((((none : Option (List Char)).getD []).length : Nat) : Int) = d.e := by
        simp only [Option.getD_none, List.length_nil, Nat.cast_zero, sub_zero]
        omega
      exact parseChars_signed (d.c < 0) hDcons hc0.2.2.2.1 hc0.2.2.2.2
        hse1 hsd1 hpd1 (Or.inl ⟨rfl, rfl⟩) hsignc hee1
    · rw [if_neg he0]
      by_cases hbig : ((natDigitChars d.c.natAbs).length : Int) > -d.e
      · rw [if_pos hbig]
        have hk : (-d.e).toNat < (natDigitChars d.c.natAbs).length := by omega
        set t : Nat := (natDigitChars d.c.natAbs).length - (-d.e).toNat with htdef
        obtain ⟨t', ht'⟩ : ∃ t', t = t' + 1 := ⟨t - 1, by omega⟩
        have hbodyshape :
            (natDigitChars d.c.natAbs).take t ++
              '.' :: (natDigitChars d.c.natAbs).drop t
            = c0 :: (crest.take t' ++
                '.' :: (natDigitChars d.c.natAbs).drop t) := by
          conv_lhs => rw [ht', hDcons, List.take_succ_cons]
          rw [List.cons_append, ht', hDcons]
        have hse2 : splitOnExp ((natDigitChars d.c.natAbs).take t ++
              '.' :: (natDigitChars d.c.natAbs).drop t)
            = ((natDigitChars d.c.natAbs).take t ++
              '.' :: (natDigitChars d.c.natAbs).drop t, none) := by
          refine splitOnExp_no _ ?_
          intro ch hch
          rcases List.mem_append.mp hch with h | h
          · have := hDspec ch (List.take_subset _ _ h)
            exact ⟨this.1, this.2.1⟩
          · rcases List.mem_cons.mp h with rfl | h
            · exact ⟨by decide, by decide⟩
            · have := hDspec ch (List.drop_subset _ _ h)
              exact ⟨this.1, this.2.1⟩
        have hsd2 : splitOnDot ((natDigitChars d.c.natAbs).take t ++
              '.' :: (natDigitChars d.c.natAbs).drop t)
            = ((natDigitChars d.c.natAbs).take t,
              some ((natDigitChars d.c.natAbs).drop t)) :=
          splitOnDot_append _ _
            (fun ch hch => (hDspec ch (List.take_subset _ _ hch)).2.2.1)
        have hpd2 : parseDigits ((natDigitChars d.c.natAbs).take t ++
            (some ((natDigitChars d.c.natAbs).drop t)).getD [])
            = some d.c.natAbs := by
          rw [Option.getD_some, List.take_append_drop]
          exact hpdD
        have hee2 : (0 : Int) -
            (((some ((natDigitChars d.c.natAbs).drop t)).getD []).length : Int)
            = d.e := by
          rw [Option.getD_some, List.length_drop]
          omega
        exact parseChars_signed (d.c < 0) hbodyshape hc0.2.2.2.1 hc0.2.2.2.2
          hse2 hsd2 hpd2 (Or.inl ⟨rfl, rfl⟩) hsignc hee2
      · rw [if_neg hbig]
        set m : Nat := (-d.e).toNat - (natDigitChars d.c.natAbs).length with hmdef
        have hse3 : splitOnExp ('0' :: '.' ::
              (List.replicate m '0' ++ natDigitChars d.c.natAbs))
            = ('0' :: '.' ::
              (List.replicate m '0' ++ natDigitChars d.c.natAbs), none) := by
          refine splitOnExp_no _ ?_
          intro ch hch
          rcases List.mem_cons.mp hch with rfl | hch
          · exact ⟨by decide, by decide⟩
          rcases List.mem_cons.mp hch with rfl | hch
          · exact ⟨by decide, by decide⟩
          rcases List.mem_append.mp hch with h | h
          · rw [List.eq_of_mem_replicate h]
            exact ⟨by decide, by decide⟩
          · have := hDspec ch h
            exact ⟨this.1, this.2.1⟩
        have hsd3 : splitOnDot ('0' :: '.' ::
              (List.replicate m '0' ++ natDigitChars d.c.natAbs))
            = (['0'], some (List.replicate m '0' ++ natDigitChars d.c.natAbs)) :=
          splitOnDot_append ['0'] _
            (fun ch hch => by
              rw [List.mem_singleton.mp hch]; decide)
        have hpd3 : parseDigits (['0'] ++
            (some (List.replicate m '0' ++ natDigitChars d.c.natAbs)).getD [])
            = some d.c.natAbs := by
          rw [Option.getD_some]
          have hshape : (('0' :: (List.replicate m '0' ++
                natDigitChars d.c.natAbs)) : List Char)
              = (0 :: (List.replicate m 0 ++ L)).map digitChar := by
            rw [List.map_cons, List.map_append, List.map_replicate, hD]
            rfl
          have hlt3 : ∀ dd ∈ (0 :: (List.replicate m 0 ++ L)), dd < 10 := by
            intro dd hdd
            rcases List.mem_cons.mp hdd with rfl | hdd
            · decide
            rcases List.mem_append.mp hdd with h | h
            · rw [List.eq_of_mem_replicate h]
              decide
            · exact hLlt dd h
          show parseDigits ('0' :: (List.replicate m '0' ++
            natDigitChars d.c.natAbs)) = _
          rw [hshape, parseDigits_map _ hlt3 (by simp)]
          congr 1
          rw [List.reverse_cons, List.reverse_append, List.reverse_replicate,
            List.append_assoc, ← List.replicate_succ',
            Nat.ofDigits_append, ofDigits_replicate_zero, hLval]
          simp
        have hee3 : (0 : Int) -
            (((some (List.replicate m '0' ++
              natDigitChars d.c.natAbs)).getD []).length : Int) = d.e := by
          rw [Option.getD_some, List.length_append, List.length_replicate]
          omega
        exact parseChars_signed (d.c < 0) rfl (by decide) (by decide)
          hse3 hsd3 hpd3 (Or.inl ⟨rfl, rfl⟩) hsignc hee3
  · rw [if_neg hmain]
    rw [hDcons]
    dsimp only
    obtain ⟨M, hM, hMlt, hMval, hMne⟩ :=
      natDigitChars_shape (d.e + ((c0 :: crest).length : Int) - 1).natAbs
    have hpdM : parseDigits
        (natDigitChars (d.e + ((c0 :: crest).length : Int) - 1).natAbs)
        = some (d.e + ((c0 :: crest).length : Int) - 1).natAbs := by
      rw [hM, parseDigits_map M hMlt hMne, hMval]
    have hexp : ∃ eneg ed,
        parseSign (expChars (d.e + ((c0 :: crest).length : Int) - 1)) = (eneg, ed) ∧
        parseDigits ed = some (d.e + ((c0 :: crest).length : Int) - 1).natAbs ∧
        (d.e + ((c0 :: crest).length : Int) - 1)
          = if eneg then -(((d.e + ((c0 :: crest).length : Int) - 1).natAbs : Nat) : Int)
            else (((d.e + ((c0 :: crest).length : Int) - 1).natAbs : Nat) : Int) := by
      by_cases ha : d.e + ((c0 :: crest).length : Int) - 1 < 0
      · refine ⟨true, _, ?_, hpdM, ?_⟩
        · rw [expChars, if_pos ha, List.singleton_append]
          rfl
        · rw [if_pos rfl]
          omega
      · refine ⟨false, _, ?_, hpdM, ?_⟩
        · rw [expChars, if_neg ha, List.singleton_append]
          rfl
        · rw [if_neg Bool.false_ne_true]
          omega
    obtain ⟨eneg, ed, hpse, hped, haval⟩ := hexp
    have hpdDc : parseDigits (c0 :: crest) = some d.c.natAbs := hDcons ▸ hpdD
    have hcrest : ∀ ch ∈ crest,
        ch ≠ 'E' ∧ ch ≠ 'e' ∧ ch ≠ '.' ∧ ch ≠ '-' ∧ ch ≠ '+' := by
      intro ch hch
      apply hDspec
      rw [hDcons]
      exact List.mem_cons_of_mem _ hch
    by_cases hrest : crest = []
    · rw [if_pos hrest]
      have hseD1 : splitOnExp ([c0] ++
            'E' :: expChars (d.e + ((c0 :: crest).length : Int) - 1))
          = ([c0], some (expChars (d.e + ((c0 :: crest).length : Int) - 1))) :=
        splitOnExp_append [c0] _
          (fun ch hch => by
            rw [List.mem_singleton.mp hch]
            exact ⟨hc0.1, hc0.2.1⟩)
      have hsdD1 : splitOnDot [c0] = ([c0], none) :=
        splitOnDot_no [c0]
          (fun ch hch => by
            rw [List.mem_singleton.mp hch]
            exact hc0.2.2.1)
      have hpdD1 : parseDigits ([c0] ++
          (none : Option (List Char)).getD []) = some d.c.natAbs := by
        have h := hpdDc
        rw [hrest] at h
        simpa using h
      have heeD1 : (d.e + ((c0 :: crest).length : Int) - 1) -
          (((none : Option (List Char)).getD []).length : Int) = d.e := by
        have hcr : crest.length = 0 := by rw [hrest]; rfl
        simp only [Option.getD_none, List.length_nil, Nat.cast_zero, sub_zero,
          List.length_cons]
        omega
      exact parseChars_signed (d.c < 0) rfl hc0.2.2.2.1 hc0.2.2.2.2
        hseD1 hsdD1 hpdD1 (Or.inr ⟨_, eneg, ed, _, rfl, hpse, hped, haval⟩)
        hsignc heeD1
    · rw [if_neg hrest]
      have hseD2 : splitOnExp ((c0 :: '.' :: crest) ++
            'E' :: expChars (d.e + ((c0 :: crest).length : Int) - 1))
          = (c0 :: '.' :: crest,
            some (expChars (d.e + ((c0 :: crest).length : Int) - 1))) :=
        splitOnExp_append (c0 :: '.' :: crest) _
          (fun ch hch => by
            rcases List.mem_cons.mp hch with rfl | hch2
            · exact ⟨hc0.1, hc0.2.1⟩
            · rcases List.mem_cons.mp hch2 with rfl | hch3
              · exact ⟨by decide, by decide⟩
              · exact ⟨(hcrest ch hch3).1, (hcrest ch hch3).2.1⟩)
      have hsdD2 : splitOnDot (c0 :: '.' :: crest) = ([c0], some crest) :=
        splitOnDot_append [c0] crest
          (fun ch hch => by
            rw [List.mem_singleton.mp hch]
            exact hc0.2.2.1)
      have hpdD2 : parseDigits ([c0] ++ (some crest).getD [])
          = some d.c.natAbs := by
        rw [Option.getD_some]
        exact hpdDc
      have heeD2 : (d.e + ((c0 :: crest).length : Int) - 1) -
          (((some crest).getD []).length : Int) = d.e := by
        rw [Option.getD_some]
        simp only [List.length_cons]
        omega
      exact parseChars_signed (d.c < 0) rfl hc0.2.2.2.1 hc0.2.2.2.2
        hseD2 hsdD2 hpdD2 (Or.inr ⟨_, eneg, ed, _, rfl, hpse, hped, haval⟩)
        hsignc heeD2

/-- **C9.**  Decimal string round-trip: for every decimal obtained from
`NewDecimalFromInt`, or accepted by `NewDecimalFromString` with a
coefficient within the 20-digit working precision, re-parsing the
canonical `String` serialisation recovers the value exactly, and `Scan`
applied to the database `Value` recovers it as well. -/
theorem c9_decimal_roundtrip (d : Dec)
    (_h : (∃ v : Int, d = NewDecimalFromInt v) ∨
      (∃ s : String, NewDecimalFromString s = .ok d ∧
        numDigits d.c.natAbs ≤ decPrecision)) :
    NewDecimalFromString d.format = .ok d ∧ Dec.Scan (Dec.Value d) = some d := by
  constructor
  · unfold NewDecimalFromString Dec.format
    rw [show (String.mk (formatChars d)).data = formatChars d from rfl,
      parseChars_formatChars d]
  · unfold Dec.Scan Dec.Value Dec.format
    rw [show (String.mk (formatChars d)).data = formatChars d from rfl]
    exact parseChars_formatChars d

theorem c9_decimal_roundtrip_witness :
    NewDecimalFromString (Dec.format (NewDecimalFromInt 12345))
        = .ok (NewDecimalFromInt 12345) ∧
      Dec.Scan (Dec.Value (NewDecimalFromInt 12345))
        = some (NewDecimalFromInt 12345) :=
  c9_decimal_roundtrip (NewDecimalFromInt 12345) (Or.inl ⟨12345, rfl⟩)

end StockTracker
